import Mathlib

/-!
Verification development for the sistema dependency-execution engine.

The definitions below are a shallow embedding of the JavaScript source
(the canonical core: the Dependency / ResourceDependency / Context classes,
the `run` resolver and the AsyncStatus gate).  Asynchronous code is
modelled by its settlement semantics: every promise is represented by its
settled outcome (`Except String _`), and the resolver is the sequential
collapse of the microtask schedule, evaluating the cached promise graph in
dependency order.  Machine state that the JavaScript mutates in place
(caches, Set membership, memo fields) is threaded explicitly.
Nodes are identified by natural numbers (object identity), contexts by
natural numbers as well; parameter names are strings.
-/

namespace Sistema

instance : BEq (Nat ⊕ String) := ⟨fun a b => decide (a = b)⟩

instance : LawfulBEq (Nat ⊕ String) where
  eq_of_beq h := of_decide_eq_true h
  rfl := by simp [BEq.beq]

/-- DEPENDENCY_STATUS enum of the source: READY / SHUTDOWN. -/
inductive DepStatus where
  | ready
  | shutdown
deriving DecidableEq, Repr

/-- The two node variants: a plain Dependency (transient) re-runs on each
run; a ResourceDependency memoizes its first successful result. -/
inductive NodeKind where
  | transient
  | resource
deriving DecidableEq, Repr

/-- Cache keys of the per-run cache.  A real Dependency uses itself as key
(`this.id = this`, modelled by its numeric identity); a ValueDependency
uses its name (string); META_DEPENDENCY is a dedicated Symbol.  The
EXECUTION_ID key is the string "_id", hence `Key.param "_id"`. -/
inductive Key where
  | dep : Nat → Key
  | param : String → Key
  | metaDep : Key
deriving DecidableEq, Repr

/-- Settled values that can sit in the per-run cache: an ordinary value
produced by a provider or passed as parameter, the execution-id string,
or the reference to the meta object of the current run. -/
inductive CVal (V : Type) where
  | v : V → CVal V
  | str : String → CVal V
  | metaRef : CVal V
deriving DecidableEq, Repr

/-- A settled promise: either a value or a rejection (error message). -/
abbrev Res (V : Type) := Except String (CVal V)

/-- The graph of dependencies, as built by dependsOn / provides.
`edges n` is edgesAndValues of node n: an inl entry is a real Dependency
edge, an inr entry is a ValueDependency placeholder (parameter name).
`inv n` is the stored inverseEdges set of node n.  The provider takes the
current invocation count of the node (JS providers are closures, so
successive calls may differ) and the resolved edge values. -/
structure Graph (V : Type) where
  kind : Nat → NodeKind
  edges : Nat → List (Nat ⊕ String)
  inv : Nat → List Nat
  provider : Nat → Nat → List (CVal V) → Except String V

/-- Persistent per-node state: the AsyncStatus gate value, the memo slot of
a ResourceDependency (a settled promise), the number of provider
invocations so far (observation used by the at-most-once claims), and the
contextItems set (ids of Contexts currently holding the node). -/
structure NodeSt (V : Type) where
  status : DepStatus
  memo : Option (Except String V)
  calls : Nat
  contextItems : List Nat
deriving Repr

/-- The persistent system state: every node state, every Context member
set (startedDependencies, in insertion order), and the per-node count of
dispose-function invocations (observation for the teardown claims). -/
structure Sys (V : Type) where
  node : Nat → NodeSt V
  ctx : Nat → List Nat
  disposals : Nat → Nat

/-- JS Set.add: append if absent (insertion order preserved). -/
def addDistinct (x : Nat) (l : List Nat) : List Nat :=
  if x ∈ l then l else l ++ [x]

/-- Replace the state of one node. -/
def Sys.withNode {V : Type} (s : Sys V) (n : Nat) (st : NodeSt V) : Sys V :=
  { s with node := fun m => if m = n then st else s.node m }

/-- Context.add: add the node to startedDependencies and the context to the
contextItems of the node. -/
def Sys.enroll {V : Type} (s : Sys V) (c n : Nat) : Sys V :=
  { s with
    ctx := fun c2 => if c2 = c then addDistinct n (s.ctx c) else s.ctx c2,
    node := fun m =>
      if m = n then
        { s.node n with contextItems := addDistinct c (s.node n).contextItems }
      else s.node m }

/-- Context.remove: delete the node from startedDependencies and the
context from the contextItems of the node. -/
def Sys.ctxRemove {V : Type} (s : Sys V) (c n : Nat) : Sys V :=
  { s with
    ctx := fun c2 => if c2 = c then (s.ctx c).erase n else s.ctx c2,
    node := fun m =>
      if m = n then
        { s.node n with contextItems := (s.node n).contextItems.erase c }
      else s.node m }

/-- Record one invocation of the dispose function of a node. -/
def Sys.bumpDispose {V : Type} (s : Sys V) (n : Nat) : Sys V :=
  { s with disposals := fun m => if m = n then s.disposals n + 1 else s.disposals m }

/-- Dependency.getValue: read the gate; when SHUTDOWN reject with the fixed
message, otherwise invoke the provider (counting the invocation). -/
def depGetValue {V : Type} (g : Graph V) (n : Nat) (args : List (CVal V))
    (s : Sys V) : Except String V × Sys V :=
  let st := s.node n
  if st.status = DepStatus.shutdown then
    (Except.error "The dependency is now shutdown", s)
  else
    let r := g.provider n st.calls args
    (r, s.withNode n { st with calls := st.calls + 1 })

/-- ResourceDependency.getValue: return the memo when set; otherwise invoke
the superclass getValue, memoize the pending result, and clear the memo
again when it rejects (settlement semantics: a rejection never stays
memoized, a fulfilment is stored). -/
def resGetValue {V : Type} (g : Graph V) (n : Nat) (args : List (CVal V))
    (s : Sys V) : Except String V × Sys V :=
  match (s.node n).memo with
  | some r => (r, s)
  | none =>
    let (r, s1) := depGetValue g n args s
    match r with
    | Except.error e =>
      (Except.error e, s1.withNode n { s1.node n with memo := none })
    | Except.ok v =>
      (Except.ok v, s1.withNode n { s1.node n with memo := some (Except.ok v) })

/-- Dynamic dispatch of getValue on the node variant. -/
def nodeGetValue {V : Type} (g : Graph V) (n : Nat) (args : List (CVal V))
    (s : Sys V) : Except String V × Sys V :=
  match g.kind n with
  | NodeKind.transient => depGetValue g n args s
  | NodeKind.resource => resGetValue g n args s

/-- Dependency shutdownOrReset: refuse when already SHUTDOWN or when some
context still holds the node; otherwise drain and flip the gate, reporting
that the transition ran. -/
def depShutdownOrReset {V : Type} (n : Nat) (newStatus : DepStatus)
    (s : Sys V) : Bool × Sys V :=
  let st := s.node n
  if newStatus = DepStatus.shutdown ∧ st.status = DepStatus.shutdown then
    (false, s)
  else if newStatus = DepStatus.shutdown ∧ st.contextItems ≠ [] then
    (false, s)
  else
    (true, s.withNode n { st with status := newStatus })

/-- ResourceDependency shutdownOrReset: same guards; additionally, when the
memo was never set the gate still advances but no dispose runs and the
result is false; otherwise the memo is cleared, dispose runs after the
in-flight drain, and the gate advances. -/
def resShutdownOrReset {V : Type} (n : Nat) (newStatus : DepStatus)
    (s : Sys V) : Bool × Sys V :=
  let st := s.node n
  if newStatus = DepStatus.shutdown ∧ st.status = DepStatus.shutdown then
    (false, s)
  else if newStatus = DepStatus.shutdown ∧ st.contextItems ≠ [] then
    (false, s)
  else
    match st.memo with
    | none => (false, s.withNode n { st with status := newStatus })
    | some _ =>
      (true, (s.withNode n { st with memo := none, status := newStatus }).bumpDispose n)

/-- Dispatch of shutdownOrReset on the node variant. -/
def shutNode {V : Type} (g : Graph V) (mode : DepStatus) (n : Nat)
    (s : Sys V) : Bool × Sys V :=
  match g.kind n with
  | NodeKind.transient => depShutdownOrReset n mode s
  | NodeKind.resource => resShutdownOrReset n mode s

/-! The per-run cache, a JS Map from keys to pending results, modelled as
an association list in insertion order. -/

/-- Map.get: the value stored under a key.  A JS Map holds each key once;
the association list is scanned for the first match. -/
def mapGet {V : Type} : List (Key × Res V) → Key → Option (Res V)
  | [], _ => none
  | p :: m, k => if p.1 = k then some p.2 else mapGet m k

/-- Map.set: overwrite the entry in place when the key exists, otherwise
append (JS Maps keep insertion order). -/
def mapSet {V : Type} : List (Key × Res V) → Key → Res V → List (Key × Res V)
  | [], k, r => [(k, r)]
  | p :: m, k, r => if p.1 = k then (k, r) :: m else p :: mapSet m k r

/-- The cache key of a dependency reference: a real Dependency is keyed by
its own identity, a ValueDependency by its name. -/
def keyOf : Nat ⊕ String → Key
  | Sum.inl n => Key.dep n
  | Sum.inr p => Key.param p

/-- Promise.all over settled results: the first rejection (in edge
declaration order) wins, otherwise the list of values. -/
def combineAll {V : Type} : List (Res V) → Except String (List (CVal V))
  | [] => Except.ok []
  | r :: rs =>
    match r with
    | Except.error e => Except.error e
    | Except.ok v =>
      match combineAll rs with
      | Except.error e => Except.error e
      | Except.ok vs => Except.ok (v :: vs)

/-- The mutable state of one run invocation: the persistent system, the
per-run cache, and the timings list of the meta object of this run (the
ids of nodes for which a success timing record was pushed, in order). -/
structure RunSt (V : Type) where
  sys : Sys V
  cache : List (Key × Res V)
  timings : List Nat

/-- Context enrollment at the start of getPromiseFromDep: a real
Dependency is added to the context (and the context to the node) before
the cache is consulted. -/
def enrollStep {V : Type} (ctx : Option Nat) (dp : Nat ⊕ String)
    (s : RunSt V) : RunSt V :=
  match ctx, dp with
  | some c, Sum.inl n => { s with sys := s.sys.enroll c n }
  | _, _ => s

/-- The tail of the cache-miss path for a real Dependency, after the
recursive resolution of its edges: combine the edge results as
Promise.all does; on a rejection cache the rejection and do not call
getValue; otherwise call getValue, cache the settled result, and push a
timing record when a context is present and the result fulfilled. -/
def finishNode {V : Type} (g : Graph V) (ctx : Option Nat) (n : Nat) :
    List (Res V) × RunSt V → Res V × RunSt V
  | (rs, s1) =>
    match combineAll rs with
    | Except.error e =>
      (Except.error e,
        { s1 with cache := mapSet s1.cache (Key.dep n) (Except.error e) })
    | Except.ok args =>
      let (r0, sys2) := nodeGetValue g n args s1.sys
      let r : Res V := r0.map CVal.v
      let tms :=
        match ctx, r0 with
        | some _, Except.ok _ => s1.timings ++ [n]
        | _, _ => s1.timings
      (r, { sys := sys2, cache := mapSet s1.cache (Key.dep n) r, timings := tms })

/-- The walk at exhausted recursion depth: cache hits are still served,
anything else yields a fuel error without touching the cache (this
situation never arises with enough fuel; the JavaScript original needs
none, because a cyclic graph deadlocks on pending promises instead of
recursing). -/
def visitsZero {V : Type} (ctx : Option Nat) :
    List (Nat ⊕ String) → RunSt V → List (Res V) × RunSt V
  | [], s => ([], s)
  | dp :: ds, s =>
    let s0 := enrollStep ctx dp s
    let (r, s2) : Res V × RunSt V :=
      match mapGet s0.cache (keyOf dp) with
      | some r => (r, s0)
      | none => (Except.error "out of fuel", s0)
    let (rs2, s3) := visitsZero ctx ds s2
    (r :: rs2, s3)

/-- One recursion level of the resolver: process the list of dependency
references, resolving the edges of a missed real Dependency with the
next-deeper level. -/
def visitsLevel {V : Type} (g : Graph V) (ctx : Option Nat)
    (deeper : List (Nat ⊕ String) → RunSt V → List (Res V) × RunSt V) :
    List (Nat ⊕ String) → RunSt V → List (Res V) × RunSt V
  | [], s => ([], s)
  | dp :: ds, s =>
    let s0 := enrollStep ctx dp s
    let (r, s2) : Res V × RunSt V :=
      match mapGet s0.cache (keyOf dp) with
      | some r => (r, s0)
      | none =>
        match dp with
        | Sum.inr p =>
          let r : Res V := Except.error ("Missing argument: " ++ p)
          (r, { s0 with cache := mapSet s0.cache (keyOf dp) r })
        | Sum.inl n => finishNode g ctx n (deeper (g.edges n) s0)
    let (rs2, s3) := visitsLevel g ctx deeper ds s2
    (r :: rs2, s3)

/-- The resolver: getPromiseFromDep / getPromisesFromDeps of the source,
collapsed to settlement order.  For each dependency reference in the list:
enroll a real Dependency in the context (before the cache lookup, as in
the source), then consult the cache; on a miss resolve every edge and
finish the node (a ValueDependency has no edges and its getValue always
throws MissingArgument, so its miss path caches that rejection).  The
fuel argument bounds the edge recursion depth; it is irrelevant on
acyclic graphs given enough of it. -/
def visits {V : Type} (g : Graph V) (ctx : Option Nat) :
    Nat → List (Nat ⊕ String) → RunSt V → List (Res V) × RunSt V
  | 0 => visitsZero ctx
  | fuel + 1 => visitsLevel g ctx (visits g ctx fuel)

/-- Seeding of the cache done by run before resolving: keep or create the
execution id under the EXECUTION_ID key, and store a fresh meta object
under the META_DEPENDENCY key (overwriting any previous one). -/
def seedCache {V : Type} (params : List (Key × Res V)) (freshId : String) :
    List (Key × Res V) :=
  let idVal : Res V :=
    match mapGet params (Key.param "_id") with
    | some r => r
    | none => Except.ok (CVal.str freshId)
  mapSet (mapSet params (Key.param "_id") idVal) Key.metaDep (Except.ok CVal.metaRef)

/-- The run entry point for a single root: seed the cache from the caller
map and resolve the root. -/
def runDep {V : Type} (g : Graph V) (ctx : Option Nat) (fuel : Nat)
    (root : Nat ⊕ String) (params : List (Key × Res V)) (freshId : String)
    (sys : Sys V) : Res V × RunSt V :=
  let s0 : RunSt V := ⟨sys, seedCache params freshId, []⟩
  let (rs, s1) := visits g ctx fuel [root] s0
  (rs.headD (Except.error "no result"), s1)

/-! Context.shutdown and Context.reset: the execInverse walk.  For every
listed candidate node in turn: when it is still a member of the context,
remove it (from the member set and from its contextItems), process all of
its inverse edges recursively, and only then transition the node itself.
The returned trace lists the node ids in the order their shutdown (or
reset) call ran; the corresponding SUCCESS event is emitted at that point
when the transition reported true.  Fuel bounds the recursion; any fuel
of at least the current context size is enough, because every processed
node is first removed from the member set. -/

/-- One recursion level of the teardown walk; the recursion into the
inverse edges of a processed node, and the continuation after it, use the
next-deeper level. -/
def execListLevel {V : Type} (g : Graph V) (mode : DepStatus) (c : Nat)
    (deeper : List Nat → Sys V → Sys V × List Nat) :
    List Nat → Sys V → Sys V × List Nat
  | [], s => (s, [])
  | d :: ds, s =>
    if d ∈ s.ctx c then
      let s1 := s.ctxRemove c d
      let (s2, t1) := deeper (g.inv d) s1
      let (_, s3) := shutNode g mode d s2
      let (s4, t2) := deeper ds s3
      (s4, t1 ++ d :: t2)
    else
      execListLevel g mode c deeper ds s

/-- The teardown walk over a candidate list, with a recursion-depth
bound that is irrelevant whenever it is at least the context size. -/
def execList {V : Type} (g : Graph V) (mode : DepStatus) (c : Nat) :
    Nat → List Nat → Sys V → Sys V × List Nat
  | 0 => fun _ s => (s, [])
  | fuel + 1 => execListLevel g mode c (execList g mode c fuel)

/-- The outer loop of execInverse: while the context is non-empty, pick
its first member and walk from it. -/
def execInverse {V : Type} (g : Graph V) (mode : DepStatus) (c : Nat) :
    Nat → Sys V → Sys V × List Nat
  | 0, s => (s, [])
  | fuel + 1, s =>
    match s.ctx c with
    | [] => (s, [])
    | d :: _ =>
      let (s1, t1) := execList g mode c (s.ctx c).length [d] s
      let (s2, t2) := execInverse g mode c fuel s1
      (s2, t1 ++ t2)

theorem execList_nil {V : Type} (g : Graph V) (mode : DepStatus) (c : Nat)
    (fuel : Nat) (s : Sys V) : execList g mode c fuel [] s = (s, []) := by
  cases fuel <;> rfl

theorem execList_zero {V : Type} (g : Graph V) (mode : DepStatus) (c : Nat)
    (ds : List Nat) (s : Sys V) : execList g mode c 0 ds s = (s, []) := rfl

theorem execList_cons_mem {V : Type} (g : Graph V) (mode : DepStatus)
    (c : Nat) (fuel : Nat) (d : Nat) (ds : List Nat) (s : Sys V)
    (h : d ∈ s.ctx c) :
    execList g mode c (fuel + 1) (d :: ds) s =
      ((execList g mode c fuel ds
          (shutNode g mode d
            (execList g mode c fuel (g.inv d) (s.ctxRemove c d)).1).2).1,
        (execList g mode c fuel (g.inv d) (s.ctxRemove c d)).2 ++
          d :: (execList g mode c fuel ds
            (shutNode g mode d
              (execList g mode c fuel (g.inv d) (s.ctxRemove c d)).1).2).2) := by
  show execListLevel g mode c (execList g mode c fuel) (d :: ds) s = _
  simp only [execListLevel, if_pos h]

theorem execList_cons_not {V : Type} (g : Graph V) (mode : DepStatus)
    (c : Nat) (fuel : Nat) (d : Nat) (ds : List Nat) (s : Sys V)
    (h : d ∉ s.ctx c) :
    execList g mode c (fuel + 1) (d :: ds) s =
      execList g mode c (fuel + 1) ds s := by
  show execListLevel g mode c (execList g mode c fuel) (d :: ds) s = _
  simp only [execListLevel, if_neg h]
  rfl

/-- Context.shutdown: transition every member with target SHUTDOWN, in
inverse topological order. -/
def ctxShutdown {V : Type} (g : Graph V) (c : Nat) (s : Sys V) :
    Sys V × List Nat :=
  execInverse g DepStatus.shutdown c (s.ctx c).length s

/-- Context.reset: same walk with target READY. -/
def ctxReset {V : Type} (g : Graph V) (c : Nat) (s : Sys V) :
    Sys V × List Nat :=
  execInverse g DepStatus.ready c (s.ctx c).length s

/-! The graph-construction surface: dependsOn.  Modelled separately from
Graph because the claim about edge / inverse-edge symmetry is about the
mutation sequence performed by dependsOn. -/

/-- The edge fields of one node under construction. -/
structure BNode where
  edges : List (Nat ⊕ String)
  inv : List Nat
deriving DecidableEq, Repr

/-- The state of all nodes under construction. -/
structure BState where
  nodes : Nat → BNode

/-- All nodes start with no edges and no inverse edges. -/
def binit : BState := ⟨fun _ => ⟨[], []⟩⟩

/-- For a real Node edge, add the caller to its inverseEdges set; a
ValueDependency edge carries no inverse edge. -/
def addInv (a : Nat) (acc : BState) : Nat ⊕ String → BState
  | Sum.inl b =>
    ⟨fun m =>
      if m = b then ⟨(acc.nodes b).edges, addDistinct a (acc.nodes b).inv⟩
      else acc.nodes m⟩
  | Sum.inr _ => acc

/-- One a.dependsOn(deps) call: replace edgesAndValues of a with the new
list (strings become ValueDependency placeholders, kept as inr entries),
and add a to the inverseEdges of every real Node edge.  Nothing is ever
removed from the inverseEdges of the former edges. -/
def dependsOn (a : Nat) (ds : List (Nat ⊕ String)) (s : BState) : BState :=
  ds.foldl (addInv a) ⟨fun m => if m = a then ⟨ds, (s.nodes a).inv⟩ else s.nodes m⟩

/-- A call sequence of dependsOn invocations. -/
def applyDependsOn : List (Nat × List (Nat ⊕ String)) → BState → BState
  | [], s => s
  | (a, ds) :: ops, s => applyDependsOn ops (dependsOn a ds s)

/-! The AsyncStatus gate (asyncstatus.js), modelled at event granularity so
that the interleaving of overlapping transitions is visible.  The k-th
change call (0-based, in call order) creates chain promise k.  Events:

* change t      - a change(t, work) call runs synchronously: status is set
                  to the empty sentinel, the chain records which earlier
                  chain it awaits (the slot content at call time, via the
                  internal get), and the slot is overwritten with the new
                  chain.
* settleWork k  - the work promise of change k settles (fulfil or reject).
* applyT k      - the continuation of change k runs: it clears the slot
                  unconditionally and installs the target status; chain k
                  resolves here.  Enabled only after settleWork k and
                  after the awaited predecessor chain resolved.
* getCall gid   - a user get() call.  With an empty slot it returns the
                  current status at once; otherwise it awaits the chain
                  found in the slot.
* getResolve gid - the awaited chain of a blocked get resolved; the get
                  returns the status as of this point.  Enabled only after
                  the observed chain applied. -/
inductive GEvent where
  | change : String → GEvent
  | settleWork : Nat → GEvent
  | applyT : Nat → GEvent
  | getCall : Nat → GEvent
  | getResolve : Nat → GEvent
deriving DecidableEq, Repr

/-- The observable state of the gate plus the bookkeeping of chains and
blocked reads. -/
structure GSt where
  status : String
  slot : Option Nat
  targets : List String
  preds : List (Option Nat)
  settled : List Nat
  applied : List Nat
  gcalls : List (Nat × Option Nat)
  gresults : List (Nat × String)
deriving DecidableEq, Repr

/-- The gate in its initial status with no pending transition. -/
def ginit (initialStatus : String) : GSt :=
  ⟨initialStatus, none, [], [], [], [], [], []⟩

/-- Effect of one event on the gate state. -/
def gstep (s : GSt) : GEvent → GSt
  | GEvent.change t =>
    { s with status := "", slot := some s.targets.length,
             targets := s.targets ++ [t], preds := s.preds ++ [s.slot] }
  | GEvent.settleWork k => { s with settled := k :: s.settled }
  | GEvent.applyT k =>
    { s with status := s.targets.getD k "", slot := none, applied := k :: s.applied }
  | GEvent.getCall gid =>
    { s with gcalls := (gid, s.slot) :: s.gcalls,
             gresults :=
               match s.slot with
               | none => (gid, s.status) :: s.gresults
               | some _ => s.gresults }
  | GEvent.getResolve gid => { s with gresults := (gid, s.status) :: s.gresults }

/-- Whether an event may fire in a state: work settles once for an issued
change; a continuation applies once, after its work settled and after the
chain it awaits resolved; get ids are fresh; a blocked get resolves once,
after the chain it observed resolved. -/
def gok (s : GSt) : GEvent → Bool
  | GEvent.change _ => true
  | GEvent.settleWork k => decide (k < s.targets.length) && !(s.settled.contains k)
  | GEvent.applyT k =>
    s.settled.contains k && !(s.applied.contains k) &&
      (match s.preds.getD k none with
       | none => true
       | some j => s.applied.contains j)
  | GEvent.getCall gid => !((s.gcalls.map Prod.fst).contains gid)
  | GEvent.getResolve gid =>
    !((s.gresults.map Prod.fst).contains gid) &&
      (match s.gcalls.find? (fun p => p.1 = gid) with
       | some (_, some k) => s.applied.contains k
       | _ => false)

/-- Run a trace of events from a state. -/
def grun (s : GSt) : List GEvent → GSt
  | [] => s
  | e :: es => grun (gstep s e) es

/-- A trace is valid from a state when every event is enabled when it
fires. -/
def gvalid (s : GSt) : List GEvent → Bool
  | [] => true
  | e :: es => gok s e && gvalid (gstep s e) es

/-- A sequence of direct getValue invocations on one node (the per-node
slice of successive runs reaching it). -/
def getValueSeq {V : Type} (g : Graph V) (n : Nat) :
    List (List (CVal V)) → Sys V → List (Except String V) × Sys V
  | [], s => ([], s)
  | args :: rest, s =>
    let (r, s1) := nodeGetValue g n args s
    let (rs, s2) := getValueSeq g n rest s1
    (r :: rs, s2)

/-! Basic lemmas about the cache map and the system state. -/

theorem mapGet_mapSet_self {V : Type} (m : List (Key × Res V)) (k : Key)
    (r : Res V) : mapGet (mapSet m k r) k = some r := by
  induction m with
  | nil => simp [mapGet, mapSet]
  | cons p m ih =>
    by_cases hk : p.1 = k
    · simp [mapSet, mapGet, hk]
    · simp [mapSet, mapGet, hk, ih]

theorem mapGet_mapSet_ne {V : Type} (m : List (Key × Res V)) (k k2 : Key)
    (r : Res V) (h : k2 ≠ k) : mapGet (mapSet m k r) k2 = mapGet m k2 := by
  induction m with
  | nil => simp [mapGet, mapSet, Ne.symm h]
  | cons p m ih =>
    by_cases hk : p.1 = k
    · have hk2 : p.1 ≠ k2 := fun hc => h (by rw [← hc, hk])
      simp [mapSet, mapGet, hk, hk2, Ne.symm h]
    · by_cases hk2 : p.1 = k2
      · simp [mapSet, mapGet, hk, hk2, h]
      · simp [mapSet, mapGet, hk, hk2, ih]

theorem isSome_mapGet_mapSet {V : Type} (m : List (Key × Res V)) (k k2 : Key)
    (r : Res V) (h : (mapGet m k2).isSome) :
    (mapGet (mapSet m k r) k2).isSome := by
  by_cases hk : k2 = k
  · subst hk; simp [mapGet_mapSet_self]
  · rwa [mapGet_mapSet_ne _ _ _ _ hk]

theorem Sys.node_withNode {V : Type} (s : Sys V) (n m : Nat) (st : NodeSt V) :
    (s.withNode n st).node m = if m = n then st else s.node m := rfl

theorem Sys.ctx_withNode {V : Type} (s : Sys V) (n : Nat) (st : NodeSt V) :
    (s.withNode n st).ctx = s.ctx := rfl

theorem Sys.disposals_withNode {V : Type} (s : Sys V) (n : Nat) (st : NodeSt V) :
    (s.withNode n st).disposals = s.disposals := rfl

theorem Sys.node_enroll {V : Type} (s : Sys V) (c n m : Nat) :
    (s.enroll c n).node m =
      if m = n then
        { s.node n with contextItems := addDistinct c (s.node n).contextItems }
      else s.node m := rfl

theorem Sys.ctx_enroll {V : Type} (s : Sys V) (c n : Nat) (c2 : Nat) :
    (s.enroll c n).ctx c2 = if c2 = c then addDistinct n (s.ctx c) else s.ctx c2 := rfl

theorem Sys.disposals_enroll {V : Type} (s : Sys V) (c n : Nat) :
    (s.enroll c n).disposals = s.disposals := rfl

theorem Sys.node_ctxRemove {V : Type} (s : Sys V) (c n m : Nat) :
    (s.ctxRemove c n).node m =
      if m = n then
        { s.node n with contextItems := (s.node n).contextItems.erase c }
      else s.node m := rfl

theorem Sys.ctx_ctxRemove {V : Type} (s : Sys V) (c n : Nat) (c2 : Nat) :
    (s.ctxRemove c n).ctx c2 = if c2 = c then (s.ctx c).erase n else s.ctx c2 := rfl

theorem Sys.disposals_ctxRemove {V : Type} (s : Sys V) (c n : Nat) :
    (s.ctxRemove c n).disposals = s.disposals := rfl

theorem Sys.node_bumpDispose {V : Type} (s : Sys V) (n : Nat) :
    (s.bumpDispose n).node = s.node := rfl

theorem Sys.ctx_bumpDispose {V : Type} (s : Sys V) (n : Nat) :
    (s.bumpDispose n).ctx = s.ctx := rfl

theorem Sys.disposals_bumpDispose {V : Type} (s : Sys V) (n m : Nat) :
    (s.bumpDispose n).disposals m = if m = n then s.disposals n + 1 else s.disposals m := rfl

theorem mem_addDistinct (y x : Nat) (l : List Nat) :
    y ∈ addDistinct x l ↔ y = x ∨ y ∈ l := by
  unfold addDistinct
  by_cases h : x ∈ l
  · simp only [if_pos h]
    constructor
    · exact fun hy => Or.inr hy
    · rintro (rfl | hy)
      · exact h
      · exact hy
  · simp only [if_neg h, List.mem_append, List.mem_singleton]
    exact or_comm

theorem self_mem_addDistinct (x : Nat) (l : List Nat) : x ∈ addDistinct x l :=
  (mem_addDistinct x x l).2 (Or.inl rfl)

theorem addDistinct_idem (x : Nat) (l : List Nat) :
    addDistinct x (addDistinct x l) = addDistinct x l := by
  unfold addDistinct
  by_cases h : x ∈ l
  · simp [h]
  · simp [h]

/-! Characterization of dependsOn. -/

theorem foldl_addInv_edges (a : Nat) (l : List (Nat ⊕ String)) :
    ∀ (acc : BState) (m : Nat),
      ((l.foldl (addInv a) acc).nodes m).edges = (acc.nodes m).edges := by
  induction l with
  | nil => intro acc m; rfl
  | cons d rest ih =>
    intro acc m
    cases d with
    | inl b =>
      rw [List.foldl_cons, ih]
      by_cases hm : m = b
      · simp [addInv, hm]
      · simp [addInv, hm]
    | inr p => rw [List.foldl_cons]; exact ih acc m

theorem foldl_addInv_inv (a : Nat) (l : List (Nat ⊕ String)) :
    ∀ (acc : BState) (b : Nat),
      ((l.foldl (addInv a) acc).nodes b).inv =
        if (Sum.inl b : Nat ⊕ String) ∈ l then addDistinct a ((acc.nodes b).inv)
        else (acc.nodes b).inv := by
  induction l with
  | nil => intro acc b; simp
  | cons d rest ih =>
    intro acc b
    cases d with
    | inl b2 =>
      rw [List.foldl_cons, ih]
      by_cases hb : b = b2
      · subst hb
        by_cases hrest : (Sum.inl b : Nat ⊕ String) ∈ rest
        · simp [addInv, hrest, addDistinct_idem]
        · simp [addInv, hrest]
      · have hne : (Sum.inl b : Nat ⊕ String) ≠ Sum.inl b2 := by
          intro hc; exact hb (Sum.inl.inj hc)
        by_cases hrest : (Sum.inl b : Nat ⊕ String) ∈ rest
        · simp [addInv, hb, hrest, hne]
        · simp [addInv, hb, hrest, hne]
    | inr p =>
      rw [List.foldl_cons]
      have hne : (Sum.inl b : Nat ⊕ String) ≠ Sum.inr p := by simp
      rw [ih]
      simp [addInv, hne]

theorem dependsOn_edges (a : Nat) (ds : List (Nat ⊕ String)) (s : BState)
    (m : Nat) :
    ((dependsOn a ds s).nodes m).edges = if m = a then ds else (s.nodes m).edges := by
  unfold dependsOn
  rw [foldl_addInv_edges]
  by_cases hm : m = a
  · simp [hm]
  · simp [hm]

theorem dependsOn_inv (a : Nat) (ds : List (Nat ⊕ String)) (s : BState)
    (b : Nat) :
    ((dependsOn a ds s).nodes b).inv =
      if (Sum.inl b : Nat ⊕ String) ∈ ds then addDistinct a ((s.nodes b).inv)
      else (s.nodes b).inv := by
  unfold dependsOn
  rw [foldl_addInv_inv]
  by_cases hb : b = a
  · subst hb; simp
  · simp [hb]

/-- The forward symmetry of the edge relation is preserved by any
dependsOn call. -/
theorem dependsOn_preserves_sym (a : Nat) (ds : List (Nat ⊕ String))
    (s : BState)
    (h : ∀ x y : Nat, Sum.inl y ∈ (s.nodes x).edges → x ∈ (s.nodes y).inv) :
    ∀ x y : Nat, Sum.inl y ∈ ((dependsOn a ds s).nodes x).edges →
      x ∈ ((dependsOn a ds s).nodes y).inv := by
  intro x y hxy
  rw [dependsOn_edges] at hxy
  rw [dependsOn_inv]
  by_cases hx : x = a
  · subst hx
    rw [if_pos rfl] at hxy
    rw [if_pos hxy]
    exact self_mem_addDistinct x _
  · rw [if_neg hx] at hxy
    have hmem := h x y hxy
    by_cases hds : (Sum.inl y : Nat ⊕ String) ∈ ds
    · rw [if_pos hds]
      exact (mem_addDistinct x a _).2 (Or.inr hmem)
    · rw [if_neg hds]
      exact hmem

/-- A node untouched so far: empty edges and member of no inverse-edge
set.  Such nodes are exactly those whose dependsOn has not run yet. -/
def freshFor (s : BState) (a : Nat) : Prop :=
  (s.nodes a).edges = [] ∧ ∀ b : Nat, a ∉ (s.nodes b).inv

/-- Full symmetry (both directions) of the edge and inverse-edge sets. -/
def symIff (s : BState) : Prop :=
  ∀ a b : Nat, a ∈ (s.nodes b).inv ↔ Sum.inl b ∈ (s.nodes a).edges

theorem dependsOn_symIff (a : Nat) (ds : List (Nat ⊕ String)) (s : BState)
    (hsym : symIff s) (hfresh : freshFor s a) : symIff (dependsOn a ds s) := by
  intro x y
  rw [dependsOn_edges, dependsOn_inv]
  by_cases hx : x = a
  · subst hx
    rw [if_pos rfl]
    by_cases hds : (Sum.inl y : Nat ⊕ String) ∈ ds
    · rw [if_pos hds]
      exact ⟨fun _ => hds, fun _ => self_mem_addDistinct x _⟩
    · rw [if_neg hds]
      exact ⟨fun hc => absurd hc (hfresh.2 y), fun hc => absurd hc hds⟩
  · rw [if_neg hx]
    by_cases hds : (Sum.inl y : Nat ⊕ String) ∈ ds
    · rw [if_pos hds, mem_addDistinct]
      constructor
      · rintro (rfl | hm)
        · exact absurd rfl hx
        · exact (hsym x y).1 hm
      · exact fun h => Or.inr ((hsym x y).2 h)
    · rw [if_neg hds]
      exact hsym x y

theorem dependsOn_freshFor (a c : Nat) (ds : List (Nat ⊕ String)) (s : BState)
    (hne : c ≠ a) (hfresh : freshFor s c) : freshFor (dependsOn a ds s) c := by
  constructor
  · rw [dependsOn_edges, if_neg hne]
    exact hfresh.1
  · intro b
    rw [dependsOn_inv]
    by_cases hds : (Sum.inl b : Nat ⊕ String) ∈ ds
    · rw [if_pos hds, mem_addDistinct]
      rintro (rfl | hm)
      · exact hne rfl
      · exact hfresh.2 b hm
    · rw [if_neg hds]
      exact hfresh.2 b

theorem applyDependsOn_symIff (ops : List (Nat × List (Nat ⊕ String))) :
    ∀ s : BState, symIff s → (ops.map Prod.fst).Nodup →
      (∀ a ∈ ops.map Prod.fst, freshFor s a) →
      symIff (applyDependsOn ops s) := by
  induction ops with
  | nil => intro s hsym _ _; exact hsym
  | cons op rest ih =>
    intro s hsym hnodup hfresh
    have hfa : freshFor s op.1 := hfresh op.1 (by simp)
    have hsym2 : symIff (dependsOn op.1 op.2 s) :=
      dependsOn_symIff op.1 op.2 s hsym hfa
    have h0 : (op.1 :: rest.map Prod.fst).Nodup := by simpa using hnodup
    have h1 := List.nodup_cons.mp h0
    have hnodup2 : (rest.map Prod.fst).Nodup := h1.2
    have hne : ∀ c ∈ rest.map Prod.fst, c ≠ op.1 := by
      intro c hc hcop
      exact h1.1 (hcop ▸ hc)
    have hfresh2 : ∀ c ∈ rest.map Prod.fst, freshFor (dependsOn op.1 op.2 s) c := by
      intro c hc
      exact dependsOn_freshFor op.1 c op.2 s (hne c hc) (hfresh c (by simp [hc]))
    show symIff (applyDependsOn rest (dependsOn op.1 op.2 s))
    exact ih (dependsOn op.1 op.2 s) hsym2 hnodup2 hfresh2

theorem applyDependsOn_sym (ops : List (Nat × List (Nat ⊕ String))) :
    ∀ s : BState,
      (∀ x y : Nat, Sum.inl y ∈ (s.nodes x).edges → x ∈ (s.nodes y).inv) →
      ∀ x y : Nat, Sum.inl y ∈ ((applyDependsOn ops s).nodes x).edges →
        x ∈ ((applyDependsOn ops s).nodes y).inv := by
  induction ops with
  | nil => intro s h; exact h
  | cons op rest ih =>
    intro s h
    exact ih (dependsOn op.1 op.2 s) (dependsOn_preserves_sym op.1 op.2 s h)

/-- C5 counterexample: the claimed equivalence fails after a node re-runs
dependsOn.  The sequence 0.dependsOn(1); 0.dependsOn(2) replaces the
edges of node 0 but leaves node 0 inside the inverseEdges of node 1, so
0 is a member of the inverse edges of 1 while 1 is no longer an edge of
0: the two relations are not symmetric in both directions. -/
theorem c5_inverse_edge_without_edge :
    0 ∈ ((applyDependsOn [(0, [Sum.inl 1]), (0, [Sum.inl 2])] binit).nodes 1).inv ∧
    ¬ (Sum.inl 1 ∈
        ((applyDependsOn [(0, [Sum.inl 1]), (0, [Sum.inl 2])] binit).nodes 0).edges) := by
  constructor
  · decide
  · decide

/-- C5 amended: after any sequence of dependsOn calls, a node that lists B
among its edges is a member of the inverseEdges of B; the converse
direction of the claimed equivalence holds only when no node invokes
dependsOn twice in the sequence (a re-declaration leaves stale inverse
edges behind, as the counterexample shows). -/
theorem c5_edge_inverse_symmetry_amended :
    (∀ (ops : List (Nat × List (Nat ⊕ String))) (a b : Nat),
        Sum.inl b ∈ ((applyDependsOn ops binit).nodes a).edges →
        a ∈ ((applyDependsOn ops binit).nodes b).inv) ∧
    (∀ ops : List (Nat × List (Nat ⊕ String)),
        (ops.map Prod.fst).Nodup →
        ∀ a b : Nat,
          a ∈ ((applyDependsOn ops binit).nodes b).inv ↔
          Sum.inl b ∈ ((applyDependsOn ops binit).nodes a).edges) := by
  constructor
  · intro ops a b h
    exact applyDependsOn_sym ops binit (by intro x y hc; simp [binit] at hc) a b h
  · intro ops hnodup a b
    exact applyDependsOn_symIff ops binit
      (by intro x y; simp [binit])
      hnodup
      (by intro a2 _; exact ⟨rfl, by intro b2; simp [binit]⟩) a b

/-- C5 witness: both parts of the amended theorem applied on the concrete
two-call sequence 1.dependsOn(0); 2.dependsOn(0, 1). -/
theorem c5_edge_inverse_symmetry_witness :
    1 ∈ ((applyDependsOn [(1, [Sum.inl 0]), (2, [Sum.inl 0, Sum.inl 1])] binit).nodes 0).inv ∧
    (2 ∈ ((applyDependsOn [(1, [Sum.inl 0]), (2, [Sum.inl 0, Sum.inl 1])] binit).nodes 1).inv ↔
      Sum.inl 1 ∈
        ((applyDependsOn [(1, [Sum.inl 0]), (2, [Sum.inl 0, Sum.inl 1])] binit).nodes 2).edges) :=
  ⟨c5_edge_inverse_symmetry_amended.1 [(1, [Sum.inl 0]), (2, [Sum.inl 0, Sum.inl 1])] 1 0
      (by decide),
   c5_edge_inverse_symmetry_amended.2 [(1, [Sum.inl 0]), (2, [Sum.inl 0, Sum.inl 1])]
      (by decide) 2 1⟩

/-- One getValue invocation on a node whose gate is SHUTDOWN (and, for a
ResourceDependency, whose memo is empty, which every shutdown leaves
behind): it rejects with the fixed message, the provider does not run, and
the gate and the memo are unchanged. -/
theorem nodeGetValue_shutdown_step {V : Type} (g : Graph V) (n : Nat)
    (args : List (CVal V)) (s : Sys V)
    (h1 : (s.node n).status = DepStatus.shutdown)
    (h2 : g.kind n = NodeKind.resource → (s.node n).memo = none) :
    (nodeGetValue g n args s).1 = Except.error "The dependency is now shutdown" ∧
    ((nodeGetValue g n args s).2.node n).status = DepStatus.shutdown ∧
    (g.kind n = NodeKind.resource → ((nodeGetValue g n args s).2.node n).memo = none) ∧
    ((nodeGetValue g n args s).2.node n).calls = (s.node n).calls := by
  cases hk : g.kind n with
  | transient =>
    simp [nodeGetValue, hk, depGetValue, h1]
  | resource =>
    simp [nodeGetValue, hk, resGetValue, h2 hk, depGetValue, h1, Sys.node_withNode]

/-- C7: once the gate of a node is SHUTDOWN, every call of a whole
sequence of getValue invocations rejects with the message
"The dependency is now shutdown", no user provider code runs (the
invocation count is unchanged), and the gate stays SHUTDOWN, so the same
holds until a reset makes it READY again.  For a ResourceDependency the
hypothesis that the memo is empty records what every shutdown transition
guarantees: the shutdown path always clears the memo. -/
theorem c7_shutdown_gate_rejects {V : Type} (g : Graph V) (n : Nat)
    (argss : List (List (CVal V))) (s : Sys V)
    (h1 : (s.node n).status = DepStatus.shutdown)
    (h2 : g.kind n = NodeKind.resource → (s.node n).memo = none) :
    (∀ r ∈ (getValueSeq g n argss s).1,
        r = Except.error "The dependency is now shutdown") ∧
    ((getValueSeq g n argss s).2.node n).calls = (s.node n).calls ∧
    ((getValueSeq g n argss s).2.node n).status = DepStatus.shutdown := by
  induction argss generalizing s with
  | nil =>
    refine ⟨by intro r hr; simp [getValueSeq] at hr, rfl, h1⟩
  | cons args rest ih =>
    obtain ⟨hr1, hst, hmm, hcalls⟩ := nodeGetValue_shutdown_step g n args s h1 h2
    rcases hgv : nodeGetValue g n args s with ⟨r1, s1⟩
    rw [hgv] at hr1 hst hmm hcalls
    obtain ⟨ihr, ihc, ihs⟩ := ih s1 hst hmm
    rcases hseq : getValueSeq g n rest s1 with ⟨rs, s2⟩
    rw [hseq] at ihr ihc ihs
    refine ⟨?_, ?_, ?_⟩
    · intro r hr
      simp only [getValueSeq, hgv, hseq] at hr
      rcases List.mem_cons.mp hr with h | h
      · exact h ▸ hr1
      · exact ihr r h
    · simp only [getValueSeq, hgv, hseq]
      rw [ihc, hcalls]
    · simp only [getValueSeq, hgv, hseq]
      exact ihs

/-- C7 witness: a concrete shutdown transient node called twice. -/
theorem c7_shutdown_gate_rejects_witness :
    (∀ r ∈ (getValueSeq
        (⟨fun _ => NodeKind.transient, fun _ => [], fun _ => [],
          fun _ _ _ => Except.ok "A"⟩ : Graph String) 0 [[], []]
        ⟨fun _ => ⟨DepStatus.shutdown, none, 0, []⟩, fun _ => [], fun _ => 0⟩).1,
        r = Except.error "The dependency is now shutdown") ∧
    ((getValueSeq
        (⟨fun _ => NodeKind.transient, fun _ => [], fun _ => [],
          fun _ _ _ => Except.ok "A"⟩ : Graph String) 0 [[], []]
        ⟨fun _ => ⟨DepStatus.shutdown, none, 0, []⟩, fun _ => [], fun _ => 0⟩).2.node 0).calls =
      ((⟨fun _ => ⟨DepStatus.shutdown, none, 0, []⟩, fun _ => [], fun _ => 0⟩ :
          Sys String).node 0).calls ∧
    ((getValueSeq
        (⟨fun _ => NodeKind.transient, fun _ => [], fun _ => [],
          fun _ _ _ => Except.ok "A"⟩ : Graph String) 0 [[], []]
        ⟨fun _ => ⟨DepStatus.shutdown, none, 0, []⟩, fun _ => [], fun _ => 0⟩).2.node 0).status =
      DepStatus.shutdown :=
  c7_shutdown_gate_rejects _ 0 [[], []] _ rfl (fun h => by simp at h)

/-- C8: when the provider of a ResourceDependency fails, the rejection is
returned, the memo is left empty rather than holding the failed handle,
and the invocation count advanced by one; a following call therefore
invokes the provider again from scratch, and when that second invocation
succeeds its value is returned and memoized. -/
theorem c8_failure_not_memoized {V : Type} (g : Graph V) (n : Nat)
    (args args2 : List (CVal V)) (s : Sys V) (e : String) (v : V)
    (hk : g.kind n = NodeKind.resource)
    (hm : (s.node n).memo = none)
    (hs : (s.node n).status = DepStatus.ready)
    (hp1 : g.provider n (s.node n).calls args = Except.error e)
    (hp2 : g.provider n ((s.node n).calls + 1) args2 = Except.ok v) :
    (nodeGetValue g n args s).1 = Except.error e ∧
    ((nodeGetValue g n args s).2.node n).memo = none ∧
    ((nodeGetValue g n args s).2.node n).calls = (s.node n).calls + 1 ∧
    (nodeGetValue g n args2 (nodeGetValue g n args s).2).1 = Except.ok v ∧
    ((nodeGetValue g n args2 (nodeGetValue g n args s).2).2.node n).calls =
      (s.node n).calls + 2 ∧
    ((nodeGetValue g n args2 (nodeGetValue g n args s).2).2.node n).memo =
      some (Except.ok v) := by
  have hfirst : nodeGetValue g n args s =
      (Except.error e,
        (s.withNode n { s.node n with calls := (s.node n).calls + 1 }).withNode n
          { status := (s.node n).status, memo := none,
            calls := (s.node n).calls + 1, contextItems := (s.node n).contextItems }) := by
    simp [nodeGetValue, hk, resGetValue, hm, depGetValue, hs, hp1, Sys.node_withNode]
  rw [hfirst]
  refine ⟨rfl, by simp [Sys.node_withNode], by simp [Sys.node_withNode], ?_⟩
  have hsecond :
      nodeGetValue g n args2
        ((s.withNode n { s.node n with calls := (s.node n).calls + 1 }).withNode n
          { status := (s.node n).status, memo := none,
            calls := (s.node n).calls + 1, contextItems := (s.node n).contextItems }) =
      (Except.ok v,
        (((s.withNode n { s.node n with calls := (s.node n).calls + 1 }).withNode n
            { status := (s.node n).status, memo := none,
              calls := (s.node n).calls + 1,
              contextItems := (s.node n).contextItems }).withNode n
          { status := (s.node n).status, memo := none,
            calls := (s.node n).calls + 2, contextItems := (s.node n).contextItems }).withNode n
          { status := (s.node n).status, memo := some (Except.ok v),
            calls := (s.node n).calls + 2, contextItems := (s.node n).contextItems }) := by
    simp [nodeGetValue, hk, resGetValue, depGetValue, hs, hp2, Sys.node_withNode]
  rw [hsecond]
  exact ⟨rfl, by simp [Sys.node_withNode], by simp [Sys.node_withNode]⟩

/-- C8 witness: a concrete resource node whose provider fails on its first
call and succeeds on its second. -/
theorem c8_failure_not_memoized_witness :
    ((nodeGetValue
        (⟨fun _ => NodeKind.resource, fun _ => [], fun _ => [],
          fun _ c _ => if c = 0 then Except.error "boom" else Except.ok "R"⟩ : Graph String)
        0 []
        ⟨fun _ => ⟨DepStatus.ready, none, 0, []⟩, fun _ => [], fun _ => 0⟩).1 =
      Except.error "boom") ∧
    ((nodeGetValue
        (⟨fun _ => NodeKind.resource, fun _ => [], fun _ => [],
          fun _ c _ => if c = 0 then Except.error "boom" else Except.ok "R"⟩ : Graph String)
        0 []
        ⟨fun _ => ⟨DepStatus.ready, none, 0, []⟩, fun _ => [], fun _ => 0⟩).2.node 0).memo =
      none ∧
    (nodeGetValue
        (⟨fun _ => NodeKind.resource, fun _ => [], fun _ => [],
          fun _ c _ => if c = 0 then Except.error "boom" else Except.ok "R"⟩ : Graph String)
        0 []
        (nodeGetValue
          (⟨fun _ => NodeKind.resource, fun _ => [], fun _ => [],
            fun _ c _ => if c = 0 then Except.error "boom" else Except.ok "R"⟩ : Graph String)
          0 []
          ⟨fun _ => ⟨DepStatus.ready, none, 0, []⟩, fun _ => [], fun _ => 0⟩).2).1 =
      Except.ok "R" := by
  have h := c8_failure_not_memoized
    (⟨fun _ => NodeKind.resource, fun _ => [], fun _ => [],
      fun _ c _ => if c = 0 then Except.error "boom" else Except.ok "R"⟩ : Graph String)
    0 [] []
    ⟨fun _ => ⟨DepStatus.ready, none, 0, []⟩, fun _ => [], fun _ => 0⟩
    "boom" "R" rfl rfl rfl rfl rfl
  exact ⟨h.1, h.2.1, h.2.2.2.1⟩

/-- Transitioning a node never changes any Context member set. -/
theorem shutNode_ctx {V : Type} (g : Graph V) (mode : DepStatus) (n : Nat)
    (s : Sys V) : ((shutNode g mode n s).2).ctx = s.ctx := by
  cases hk : g.kind n with
  | transient =>
    simp only [shutNode, hk, depShutdownOrReset]
    split_ifs <;> rfl
  | resource =>
    simp only [shutNode, hk, resShutdownOrReset]
    split_ifs
    · rfl
    · rfl
    · cases (s.node n).memo <;> rfl

/-- Context.shutdown on a context holding exactly one node with no
dependents walks to: remove the node from the context, then call its
shutdown. -/
theorem ctxShutdown_single {V : Type} (g : Graph V) (c n : Nat) (s : Sys V)
    (_hinv : g.inv n = []) (hc : s.ctx c = [n]) :
    ctxShutdown g c s = ((shutNode g DepStatus.shutdown n (s.ctxRemove c n)).2, [n]) := by
  have hmem : n ∈ s.ctx c := by rw [hc]; exact List.mem_singleton_self n
  have h1 : execList g DepStatus.shutdown c 1 [n] s =
      ((shutNode g DepStatus.shutdown n (s.ctxRemove c n)).2, [n]) := by
    rw [show (1 : Nat) = 0 + 1 from rfl, execList_cons_mem g _ c 0 n [] s hmem]
    simp only [execList_zero, execList_nil]
    rfl
  show execInverse g DepStatus.shutdown c (s.ctx c).length s = _
  rw [hc]
  show (match s.ctx c with
    | [] => (s, ([] : List Nat))
    | d :: _ =>
      let p1 := execList g DepStatus.shutdown c (s.ctx c).length [d] s
      let p2 := execInverse g DepStatus.shutdown c 0 p1.1
      (p2.1, p1.2 ++ p2.2)) = _
  rw [hc]
  simp only [List.length_singleton] at h1 ⊢
  rw [h1]
  rfl

/-- C6: a ResourceDependency with a non-empty contextMembership refuses to
shut down: the call returns false and changes nothing, so neither dispose
nor the gate nor the memo is touched.  Consequently, with a node held by
two contexts X and Y, shutting down X (which first releases its own hold,
then calls shutdown) disposes nothing and leaves the memo and gate alone,
and only the shutdown of the last holder Y clears the memo, runs dispose
once, and flips the gate. -/
theorem c6_held_node_does_not_shutdown {V : Type} :
    (∀ (s : Sys V) (n : Nat), (s.node n).contextItems ≠ [] →
        resShutdownOrReset n DepStatus.shutdown s = (false, s)) ∧
    (∀ (g : Graph V) (X Y n : Nat) (v : Except String V) (s : Sys V),
        X ≠ Y →
        g.kind n = NodeKind.resource →
        g.inv n = [] →
        s.ctx X = [n] →
        s.ctx Y = [n] →
        (s.node n).status = DepStatus.ready →
        (s.node n).memo = some v →
        (s.node n).contextItems = [X, Y] →
        (((ctxShutdown g X s).1.node n).memo = some v ∧
         ((ctxShutdown g X s).1.node n).status = DepStatus.ready ∧
         (ctxShutdown g X s).1.disposals n = s.disposals n ∧
         (ctxShutdown g Y (ctxShutdown g X s).1).1.disposals n = s.disposals n + 1 ∧
         ((ctxShutdown g Y (ctxShutdown g X s).1).1.node n).memo = none ∧
         ((ctxShutdown g Y (ctxShutdown g X s).1).1.node n).status = DepStatus.shutdown)) := by
  constructor
  · intro s n hne
    unfold resShutdownOrReset
    by_cases hst : (s.node n).status = DepStatus.shutdown
    · rw [if_pos ⟨rfl, hst⟩]
    · rw [if_neg (fun hand => hst hand.2), if_pos ⟨rfl, hne⟩]
  · intro g X Y n v s hXY hkind hinv hX hY hstatus hmemo hitems
    -- the first shutdown: remove X, then refuse because Y still holds n
    have hrem1 : (s.ctxRemove X n).node n =
        ⟨(s.node n).status, (s.node n).memo, (s.node n).calls, [Y]⟩ := by
      rw [Sys.node_ctxRemove, if_pos rfl, hitems, List.erase_cons_head]
    have hsn1 : shutNode g DepStatus.shutdown n (s.ctxRemove X n) =
        (false, s.ctxRemove X n) := by
      simp only [shutNode, hkind, resShutdownOrReset, hrem1]
      split_ifs with h1 h2
      · simp [hstatus] at h1
      · rfl
      · exact absurd (by simp) h2
    have hstep1 : ctxShutdown g X s = (s.ctxRemove X n, [n]) := by
      rw [ctxShutdown_single g X n s hinv hX, hsn1]
    -- the second shutdown: remove Y, then dispose
    have hY1 : (s.ctxRemove X n).ctx Y = [n] := by
      rw [Sys.ctx_ctxRemove, if_neg (Ne.symm hXY)]
      exact hY
    have hrem2 : ((s.ctxRemove X n).ctxRemove Y n).node n =
        ⟨(s.node n).status, (s.node n).memo, (s.node n).calls, []⟩ := by
      rw [Sys.node_ctxRemove, if_pos rfl, hrem1]
      simp
    have hsn2 : shutNode g DepStatus.shutdown n ((s.ctxRemove X n).ctxRemove Y n) =
        (true,
          ((((s.ctxRemove X n).ctxRemove Y n).withNode n
            ⟨DepStatus.shutdown, none, (s.node n).calls, []⟩).bumpDispose n)) := by
      simp only [shutNode, hkind, resShutdownOrReset, hrem2]
      rw [if_neg (fun hand => by simpa [hstatus] using hand.2),
        if_neg (fun hand => by simpa using hand.2)]
      rw [hmemo]
    have hstep2 : ctxShutdown g Y (s.ctxRemove X n) =
        (((((s.ctxRemove X n).ctxRemove Y n).withNode n
            ⟨DepStatus.shutdown, none, (s.node n).calls, []⟩).bumpDispose n), [n]) := by
      rw [ctxShutdown_single g Y n (s.ctxRemove X n) hinv hY1, hsn2]
    rw [hstep1]
    refine ⟨by rw [hrem1]; exact hmemo, by rw [hrem1]; exact hstatus,
      by rw [Sys.disposals_ctxRemove], ?_, ?_, ?_⟩
    · rw [hstep2]
      simp [Sys.disposals_bumpDispose, Sys.disposals_withNode, Sys.disposals_ctxRemove]
    · rw [hstep2]
      simp [Sys.node_bumpDispose, Sys.node_withNode]
    · rw [hstep2]
      simp [Sys.node_bumpDispose, Sys.node_withNode]

/-- Concrete one-resource graph for the C6 witness. -/
def g6w : Graph String :=
  ⟨fun _ => NodeKind.resource, fun _ => [], fun _ => [], fun _ _ _ => Except.ok "R"⟩

/-- Concrete state for the C6 witness: node 5 is memoized and held by
contexts 0 and 1. -/
def s6w : Sys String :=
  ⟨fun m =>
      if m = 5 then ⟨DepStatus.ready, some (Except.ok "D"), 1, [0, 1]⟩
      else ⟨DepStatus.ready, none, 0, []⟩,
    fun c => if c = 0 ∨ c = 1 then [5] else [],
    fun _ => 0⟩

/-! Edge reachability and acyclicity of the dependency graph. -/

/-- One node depends on another when the latter occurs among its edges. -/
def DependsOnE {V : Type} (g : Graph V) (a b : Nat) : Prop :=
  Sum.inl b ∈ g.edges a

/-- A relation with no cycle: no node strictly reaches itself. -/
def AcyclicRel (r : Nat → Nat → Prop) : Prop :=
  ∀ n, ¬ Relation.TransGen r n n

/-- A rank function decreasing along the relation certifies acyclicity. -/
theorem acyclic_of_rank (r : Nat → Nat → Prop) (rank : Nat → Nat)
    (h : ∀ a b, r a b → rank b < rank a) : AcyclicRel r := by
  intro n hn
  have key : ∀ a b, Relation.TransGen r a b → rank b < rank a := by
    intro a b hab
    induction hab with
    | single h1 => exact h _ _ h1
    | tail _ h2 ih => exact lt_trans (h _ _ h2) ih
  exact lt_irrefl _ (key n n hn)

/-- Cache keys reachable from a dependency reference by walking edges:
the key of the reference itself, or recursively a key reachable from one
of the edges of a real Dependency. -/
inductive Reach {V : Type} (g : Graph V) : (Nat ⊕ String) → Key → Prop where
  | here (dp : Nat ⊕ String) : Reach g dp (keyOf dp)
  | step {n : Nat} {e : Nat ⊕ String} {k : Key} :
      e ∈ g.edges n → Reach g e k → Reach g (Sum.inl n) k

theorem reach_dep_key {V : Type} {g : Graph V} {e : Nat ⊕ String} {k : Key}
    (h : Reach g e k) :
    ∀ m : Nat, k = Key.dep m →
      e = Sum.inl m ∨
        ∃ n0, e = Sum.inl n0 ∧ Relation.TransGen (DependsOnE g) n0 m := by
  induction h with
  | here dp =>
    intro m hk
    cases dp with
    | inl n =>
      simp only [keyOf, Key.dep.injEq] at hk
      exact Or.inl (by rw [hk])
    | inr p => simp [keyOf] at hk
  | step he _ ih =>
    intro m hk
    rcases ih m hk with rfl | ⟨n0, rfl, htg⟩
    · exact Or.inr ⟨_, rfl, Relation.TransGen.single he⟩
    · exact Or.inr ⟨_, rfl, Relation.TransGen.head he htg⟩

/-- On an acyclic graph, no edge of a node can reach the cache key of the
node itself. -/
theorem no_reach_self {V : Type} {g : Graph V}
    (hacyc : AcyclicRel (DependsOnE g)) (m : Nat) (e : Nat ⊕ String)
    (he : e ∈ g.edges m) : ¬ Reach g e (Key.dep m) := by
  intro hr
  rcases reach_dep_key hr m rfl with rfl | ⟨n0, rfl, htg⟩
  · exact hacyc m (Relation.TransGen.single he)
  · exact hacyc m (Relation.TransGen.head he htg)

/-! Facts about the enrollment step, getValue and finishNode. -/

theorem Sys.calls_enroll {V : Type} (s : Sys V) (c n m : Nat) :
    ((s.enroll c n).node m).calls = (s.node m).calls := by
  rw [Sys.node_enroll]
  by_cases h : m = n
  · subst h; simp
  · rw [if_neg h]

theorem Sys.memo_enroll {V : Type} (s : Sys V) (c n m : Nat) :
    ((s.enroll c n).node m).memo = (s.node m).memo := by
  rw [Sys.node_enroll]
  by_cases h : m = n
  · subst h; simp
  · rw [if_neg h]

theorem enrollStep_cache {V : Type} (ctx : Option Nat) (dp : Nat ⊕ String)
    (s : RunSt V) : (enrollStep ctx dp s).cache = s.cache := by
  cases ctx <;> cases dp <;> rfl

theorem enrollStep_timings {V : Type} (ctx : Option Nat) (dp : Nat ⊕ String)
    (s : RunSt V) : (enrollStep ctx dp s).timings = s.timings := by
  cases ctx <;> cases dp <;> rfl

theorem enrollStep_calls {V : Type} (ctx : Option Nat) (dp : Nat ⊕ String)
    (s : RunSt V) (m : Nat) :
    ((enrollStep ctx dp s).sys.node m).calls = (s.sys.node m).calls := by
  cases ctx <;> cases dp <;> first | rfl | exact Sys.calls_enroll _ _ _ _

theorem enrollStep_memo {V : Type} (ctx : Option Nat) (dp : Nat ⊕ String)
    (s : RunSt V) (m : Nat) :
    ((enrollStep ctx dp s).sys.node m).memo = (s.sys.node m).memo := by
  cases ctx <;> cases dp <;> first | rfl | exact Sys.memo_enroll _ _ _ _

theorem nodeGetValue_node_ne {V : Type} (g : Graph V) (n : Nat)
    (args : List (CVal V)) (s : Sys V) (m : Nat) (h : m ≠ n) :
    ((nodeGetValue g n args s).2).node m = s.node m := by
  cases hk : g.kind n with
  | transient =>
    simp only [nodeGetValue, hk, depGetValue]
    split_ifs
    · rfl
    · rw [Sys.node_withNode, if_neg h]
  | resource =>
    simp only [nodeGetValue, hk, resGetValue]
    cases hm : (s.node n).memo with
    | some r => rfl
    | none =>
      simp only [depGetValue]
      split_ifs
      · simp [Sys.node_withNode, h]
      · cases hp : g.provider n (s.node n).calls args <;>
          simp [Sys.node_withNode, h]

theorem nodeGetValue_calls_le {V : Type} (g : Graph V) (n : Nat)
    (args : List (CVal V)) (s : Sys V) :
    ((nodeGetValue g n args s).2.node n).calls ≤ (s.node n).calls + 1 := by
  cases hk : g.kind n with
  | transient =>
    simp only [nodeGetValue, hk, depGetValue]
    split_ifs
    · exact Nat.le_succ _
    · simp [Sys.node_withNode]
  | resource =>
    simp only [nodeGetValue, hk, resGetValue]
    cases hm : (s.node n).memo with
    | some r => exact Nat.le_succ _
    | none =>
      simp only [depGetValue]
      split_ifs
      · simp only [Sys.node_withNode, if_pos rfl]
        exact Nat.le_succ _
      · cases hp : g.provider n (s.node n).calls args <;>
          simp [Sys.node_withNode]

theorem nodeGetValue_resource_memo {V : Type} (g : Graph V) (n : Nat)
    (args : List (CVal V)) (s : Sys V) (r : Except String V)
    (hk : g.kind n = NodeKind.resource) (hm : (s.node n).memo = some r) :
    nodeGetValue g n args s = (r, s) := by
  simp [nodeGetValue, hk, resGetValue, hm]

theorem finishNode_cache_ne {V : Type} (g : Graph V) (ctx : Option Nat)
    (n : Nat) (pr : List (Res V) × RunSt V) (k : Key) (h : k ≠ Key.dep n) :
    mapGet (finishNode g ctx n pr).2.cache k = mapGet pr.2.cache k := by
  rcases pr with ⟨rs, s1⟩
  cases hc : combineAll rs with
  | error e => simp [finishNode, hc, mapGet_mapSet_ne _ _ _ _ h]
  | ok args =>
    rcases hngv : nodeGetValue g n args s1.sys with ⟨r0, sys2⟩
    simp [finishNode, hc, hngv, mapGet_mapSet_ne _ _ _ _ h]

theorem finishNode_cache_self {V : Type} (g : Graph V) (ctx : Option Nat)
    (n : Nat) (pr : List (Res V) × RunSt V) :
    mapGet (finishNode g ctx n pr).2.cache (Key.dep n) =
      some (finishNode g ctx n pr).1 := by
  rcases pr with ⟨rs, s1⟩
  cases hc : combineAll rs with
  | error e => simp [finishNode, hc, mapGet_mapSet_self]
  | ok args =>
    rcases hngv : nodeGetValue g n args s1.sys with ⟨r0, sys2⟩
    simp [finishNode, hc, hngv, mapGet_mapSet_self]

theorem finishNode_node_ne {V : Type} (g : Graph V) (ctx : Option Nat)
    (n : Nat) (pr : List (Res V) × RunSt V) (m : Nat) (h : m ≠ n) :
    (finishNode g ctx n pr).2.sys.node m = pr.2.sys.node m := by
  rcases pr with ⟨rs, s1⟩
  cases hc : combineAll rs with
  | error e => simp [finishNode, hc]
  | ok args =>
    have := nodeGetValue_node_ne g n args s1.sys m h
    rcases hngv : nodeGetValue g n args s1.sys with ⟨r0, sys2⟩
    rw [hngv] at this
    simp only [finishNode, hc, hngv]
    exact this

theorem finishNode_calls_le {V : Type} (g : Graph V) (ctx : Option Nat)
    (n : Nat) (pr : List (Res V) × RunSt V) :
    ((finishNode g ctx n pr).2.sys.node n).calls ≤
      (pr.2.sys.node n).calls + 1 := by
  rcases pr with ⟨rs, s1⟩
  cases hc : combineAll rs with
  | error e => simp [finishNode, hc]
  | ok args =>
    have := nodeGetValue_calls_le g n args s1.sys
    rcases hngv : nodeGetValue g n args s1.sys with ⟨r0, sys2⟩
    rw [hngv] at this
    simp only [finishNode, hc, hngv]
    exact this

theorem finishNode_timings_count {V : Type} (g : Graph V) (ctx : Option Nat)
    (n : Nat) (pr : List (Res V) × RunSt V) (m : Nat) :
    ((finishNode g ctx n pr).2.timings).count m ≤
      (pr.2.timings).count m + (if m = n then 1 else 0) := by
  rcases pr with ⟨rs, s1⟩
  cases hc : combineAll rs with
  | error e => simp [finishNode, hc]
  | ok args =>
    rcases hngv : nodeGetValue g n args s1.sys with ⟨r0, sys2⟩
    simp only [finishNode, hc, hngv]
    cases ctx with
    | none => simp
    | some c =>
      cases r0 with
      | error e => simp
      | ok v =>
        simp only [List.count_append]
        by_cases hm : m = n
        · subst hm; simp
        · simp [hm, List.count_singleton, Ne.symm hm]

theorem finishNode_resource_node {V : Type} (g : Graph V) (ctx : Option Nat)
    (n : Nat) (pr : List (Res V) × RunSt V) (r : Except String V)
    (hk : g.kind n = NodeKind.resource)
    (hm : (pr.2.sys.node n).memo = some r) :
    (finishNode g ctx n pr).2.sys.node n = pr.2.sys.node n := by
  rcases pr with ⟨rs, s1⟩
  cases hc : combineAll rs with
  | error e => simp [finishNode, hc]
  | ok args =>
    have := nodeGetValue_resource_memo g n args s1.sys r hk hm
    simp [finishNode, hc, this]

/-- The head-and-tail decomposition of the resolver on a non-empty list. -/
def headRes {V : Type} (g : Graph V) (ctx : Option Nat) (fuel : Nat)
    (dp : Nat ⊕ String) (s : RunSt V) : Res V × RunSt V :=
  let s0 := enrollStep ctx dp s
  match mapGet s0.cache (keyOf dp) with
  | some r => (r, s0)
  | none =>
    match fuel, dp with
    | 0, _ => (Except.error "out of fuel", s0)
    | _ + 1, Sum.inr p =>
      let r : Res V := Except.error ("Missing argument: " ++ p)
      (r, { s0 with cache := mapSet s0.cache (keyOf dp) r })
    | fuel1 + 1, Sum.inl n =>
      finishNode g ctx n (visits g ctx fuel1 (g.edges n) s0)

theorem visits_cons {V : Type} (g : Graph V) (ctx : Option Nat) (fuel : Nat)
    (dp : Nat ⊕ String) (rest : List (Nat ⊕ String)) (s : RunSt V) :
    visits g ctx fuel (dp :: rest) s =
      ((headRes g ctx fuel dp s).1 ::
          (visits g ctx fuel rest (headRes g ctx fuel dp s).2).1,
        (visits g ctx fuel rest (headRes g ctx fuel dp s).2).2) := by
  cases fuel with
  | zero => rfl
  | succ f =>
    show visitsLevel g ctx (visits g ctx f) (dp :: rest) s = _
    cases hlook : mapGet (enrollStep ctx dp s).cache (keyOf dp) with
    | some r =>
      simp only [visitsLevel, headRes, hlook]
      rfl
    | none =>
      cases dp with
      | inl n =>
        simp only [visitsLevel, headRes, hlook]
        rfl
      | inr p =>
        simp only [visitsLevel, headRes, hlook]
        rfl

theorem visits_nil {V : Type} (g : Graph V) (ctx : Option Nat) (fuel : Nat)
    (s : RunSt V) : visits g ctx fuel [] s = ([], s) := by
  cases fuel <;> rfl

/-- A cache entry present when the resolver starts keeps its value: the
resolver writes a key only on a miss, so an existing pending handle is
never replaced within the walk. -/
theorem visits_cache_stable {V : Type} (g : Graph V) (ctx : Option Nat) :
    ∀ (fuel : Nat) (ds : List (Nat ⊕ String)) (s : RunSt V) (k : Key)
      (r : Res V),
      mapGet s.cache k = some r →
      mapGet (visits g ctx fuel ds s).2.cache k = some r := by
  intro fuel
  induction fuel using Nat.strong_induction_on with
  | _ fuel ihf =>
    intro ds
    induction ds with
    | nil =>
      intro s k r h
      rw [visits_nil]
      exact h
    | cons dp rest ihl =>
      intro s k r h
      rw [visits_cons]
      refine ihl (headRes g ctx fuel dp s).2 k r ?_
      cases hlook : mapGet (enrollStep ctx dp s).cache (keyOf dp) with
      | some r2 =>
        simp only [headRes, hlook]
        rw [enrollStep_cache]
        exact h
      | none =>
        have hkne : k ≠ keyOf dp := by
          intro hkeq
          rw [enrollStep_cache, ← hkeq, h] at hlook
          exact Option.noConfusion hlook
        rcases fuel with _ | fuel1
        · simp only [headRes, hlook]
          rw [enrollStep_cache]
          exact h
        · cases dp with
          | inr p =>
            simp only [headRes, hlook]
            rw [mapGet_mapSet_ne _ _ _ _ hkne, enrollStep_cache]
            exact h
          | inl n =>
            simp only [headRes, hlook]
            rw [finishNode_cache_ne g ctx n _ k (by simpa [keyOf] using hkne)]
            refine ihf fuel1 (Nat.lt_succ_self _) (g.edges n)
              (enrollStep ctx (Sum.inl n) s) k r ?_
            rw [enrollStep_cache]
            exact h

/-- An existing key never loses its entry during a walk. -/
theorem visits_cache_mono {V : Type} (g : Graph V) (ctx : Option Nat)
    (fuel : Nat) (ds : List (Nat ⊕ String)) (s : RunSt V) (k : Key)
    (h : (mapGet s.cache k).isSome) :
    (mapGet (visits g ctx fuel ds s).2.cache k).isSome := by
  rcases Option.isSome_iff_exists.mp h with ⟨r, hr⟩
  rw [visits_cache_stable g ctx fuel ds s k r hr]
  rfl

/-- The state after processing one list head is the state after a
singleton walk. -/
theorem headRes_state_eq {V : Type} (g : Graph V) (ctx : Option Nat)
    (fuel : Nat) (dp : Nat ⊕ String) (s : RunSt V) :
    (headRes g ctx fuel dp s).2 = (visits g ctx fuel [dp] s).2 := by
  rw [visits_cons, visits_nil]

/-- The resolver only writes keys reachable from the walked references:
any other key keeps its (possibly absent) cache entry. -/
theorem visits_newKeys {V : Type} (g : Graph V) (ctx : Option Nat) :
    ∀ (fuel : Nat) (ds : List (Nat ⊕ String)) (s : RunSt V) (k : Key),
      (∀ dp ∈ ds, ¬ Reach g dp k) →
      mapGet (visits g ctx fuel ds s).2.cache k = mapGet s.cache k := by
  intro fuel
  induction fuel using Nat.strong_induction_on with
  | _ fuel ihf =>
    intro ds
    induction ds with
    | nil =>
      intro s k _
      rw [visits_nil]
    | cons dp rest ihl =>
      intro s k hnr
      have hnrdp : ¬ Reach g dp k := hnr dp (by simp)
      have hkne : k ≠ keyOf dp := by
        intro hkeq
        exact hnrdp (hkeq ▸ Reach.here dp)
      rw [visits_cons]
      have hhead : mapGet (headRes g ctx fuel dp s).2.cache k = mapGet s.cache k := by
        cases hlook : mapGet (enrollStep ctx dp s).cache (keyOf dp) with
        | some r2 =>
          simp only [headRes, hlook]
          rw [enrollStep_cache]
        | none =>
          rcases fuel with _ | fuel1
          · simp only [headRes, hlook]
            rw [enrollStep_cache]
          · cases dp with
            | inr p =>
              simp only [headRes, hlook]
              rw [mapGet_mapSet_ne _ _ _ _ hkne, enrollStep_cache]
            | inl n =>
              simp only [headRes, hlook]
              rw [finishNode_cache_ne g ctx n _ k (by simpa [keyOf] using hkne)]
              have hinner : ∀ e ∈ g.edges n, ¬ Reach g e k := by
                intro e he hre
                exact hnrdp (Reach.step he hre)
              rw [ihf fuel1 (Nat.lt_succ_self _) (g.edges n)
                (enrollStep ctx (Sum.inl n) s) k hinner, enrollStep_cache]
      rw [ihl (headRes g ctx fuel dp s).2 k (fun e he => hnr e (by simp [he])), hhead]

/-- A node whose cache key is already present never has its provider
invoked during the walk: its invocation count is unchanged. -/
theorem visits_calls_of_cached {V : Type} (g : Graph V) (ctx : Option Nat) :
    ∀ (fuel : Nat) (ds : List (Nat ⊕ String)) (s : RunSt V) (n : Nat),
      (mapGet s.cache (Key.dep n)).isSome →
      ((visits g ctx fuel ds s).2.sys.node n).calls = (s.sys.node n).calls := by
  intro fuel
  induction fuel using Nat.strong_induction_on with
  | _ fuel ihf =>
    intro ds
    induction ds with
    | nil =>
      intro s n _
      rw [visits_nil]
    | cons dp rest ihl =>
      intro s n hpres
      rw [visits_cons]
      have hhead :
          ((headRes g ctx fuel dp s).2.sys.node n).calls = (s.sys.node n).calls ∧
          (mapGet (headRes g ctx fuel dp s).2.cache (Key.dep n)).isSome := by
        refine ⟨?_, by rw [headRes_state_eq]; exact visits_cache_mono g ctx fuel [dp] s _ hpres⟩
        cases hlook : mapGet (enrollStep ctx dp s).cache (keyOf dp) with
        | some r2 =>
          simp only [headRes, hlook]
          exact enrollStep_calls ctx dp s n
        | none =>
          rcases fuel with _ | fuel1
          · simp only [headRes, hlook]
            exact enrollStep_calls ctx dp s n
          · cases dp with
            | inr p =>
              simp only [headRes, hlook]
              exact enrollStep_calls ctx (Sum.inr p) s n
            | inl m =>
              have hmn : m ≠ n := by
                intro hmeq
                subst hmeq
                rw [enrollStep_cache] at hlook
                rw [show keyOf (Sum.inl m) = Key.dep m from rfl] at hlook
                rw [hlook] at hpres
                simp at hpres
              simp only [headRes, hlook]
              have hfin := finishNode_node_ne g ctx m
                (visits g ctx fuel1 (g.edges m) (enrollStep ctx (Sum.inl m) s)) n
                (Ne.symm hmn)
              rw [hfin]
              have hinner := ihf fuel1 (Nat.lt_succ_self _) (g.edges m)
                (enrollStep ctx (Sum.inl m) s) n
                (by rw [enrollStep_cache]; exact hpres)
              rw [hinner]
              exact enrollStep_calls ctx (Sum.inl m) s n
      rw [ihl (headRes g ctx fuel dp s).2 n hhead.2, hhead.1]

/-- A memoized ResourceDependency is never re-invoked by the resolver,
and its memo survives any walk untouched. -/
theorem visits_resource_memo {V : Type} (g : Graph V) (ctx : Option Nat) :
    ∀ (fuel : Nat) (ds : List (Nat ⊕ String)) (s : RunSt V) (n : Nat)
      (r : Except String V),
      g.kind n = NodeKind.resource →
      (s.sys.node n).memo = some r →
      ((visits g ctx fuel ds s).2.sys.node n).memo = some r ∧
      ((visits g ctx fuel ds s).2.sys.node n).calls = (s.sys.node n).calls := by
  intro fuel
  induction fuel using Nat.strong_induction_on with
  | _ fuel ihf =>
    intro ds
    induction ds with
    | nil =>
      intro s n r _ hm
      rw [visits_nil]
      exact ⟨hm, rfl⟩
    | cons dp rest ihl =>
      intro s n r hk hm
      rw [visits_cons]
      have hhead :
          ((headRes g ctx fuel dp s).2.sys.node n).memo = some r ∧
          ((headRes g ctx fuel dp s).2.sys.node n).calls = (s.sys.node n).calls := by
        cases hlook : mapGet (enrollStep ctx dp s).cache (keyOf dp) with
        | some r2 =>
          simp only [headRes, hlook]
          exact ⟨by rw [enrollStep_memo]; exact hm, enrollStep_calls ctx dp s n⟩
        | none =>
          rcases fuel with _ | fuel1
          · simp only [headRes, hlook]
            exact ⟨by rw [enrollStep_memo]; exact hm, enrollStep_calls ctx dp s n⟩
          · cases dp with
            | inr p =>
              simp only [headRes, hlook]
              exact ⟨by rw [enrollStep_memo]; exact hm,
                enrollStep_calls ctx (Sum.inr p) s n⟩
            | inl m =>
              simp only [headRes, hlook]
              have hinner := ihf fuel1 (Nat.lt_succ_self _) (g.edges m)
                (enrollStep ctx (Sum.inl m) s) n r hk
                (by rw [enrollStep_memo]; exact hm)
              by_cases hmn : m = n
              · subst hmn
                have hfin := finishNode_resource_node g ctx m
                  (visits g ctx fuel1 (g.edges m) (enrollStep ctx (Sum.inl m) s))
                  r hk hinner.1
                rw [hfin]
                exact ⟨hinner.1, by rw [hinner.2, enrollStep_calls]⟩
              · have hfin := finishNode_node_ne g ctx m
                  (visits g ctx fuel1 (g.edges m) (enrollStep ctx (Sum.inl m) s)) n
                  (fun hc => hmn hc.symm)
                rw [hfin]
                exact ⟨hinner.1, by rw [hinner.2, enrollStep_calls]⟩
      obtain ⟨hm2, hc2⟩ := hhead
      have := ihl (headRes g ctx fuel dp s).2 n r hk hm2
      exact ⟨this.1, by rw [this.2, hc2]⟩

/-- Indicator that a walk created the entry of a key: 1 when the key is
present afterwards but was absent before, 0 otherwise. -/
def newInd {V : Type} (s s2 : RunSt V) (k : Key) : Nat :=
  if (mapGet s2.cache k).isSome ∧ ¬ (mapGet s.cache k).isSome then 1 else 0

theorem newInd_le_one {V : Type} (s s2 : RunSt V) (k : Key) :
    newInd s s2 k ≤ 1 := by
  unfold newInd
  split <;> omega

theorem newInd_self {V : Type} (s : RunSt V) (k : Key) : newInd s s k = 0 := by
  unfold newInd
  split
  · next h => exact absurd h.1 h.2
  · rfl

theorem newInd_zero_of_none {V : Type} (s s2 : RunSt V) (k : Key)
    (h : mapGet s2.cache k = none) : newInd s s2 k = 0 := by
  unfold newInd
  split
  · next hc => rw [h] at hc; simp at hc
  · rfl

theorem newInd_one {V : Type} (s s2 : RunSt V) (k : Key)
    (h1 : mapGet s.cache k = none) (h2 : (mapGet s2.cache k).isSome) :
    newInd s s2 k = 1 := by
  unfold newInd
  rw [if_pos ⟨h2, by rw [h1]; simp⟩]

theorem newInd_add {V : Type} (s1 s2 s3 : RunSt V) (k : Key)
    (m12 : (mapGet s1.cache k).isSome → (mapGet s2.cache k).isSome)
    (m23 : (mapGet s2.cache k).isSome → (mapGet s3.cache k).isSome) :
    newInd s1 s3 k = newInd s1 s2 k + newInd s2 s3 k := by
  unfold newInd
  by_cases h1 : (mapGet s1.cache k).isSome
  · have h2 := m12 h1
    have h3 := m23 h2
    simp [h1, h2, h3]
  · by_cases h2 : (mapGet s2.cache k).isSome
    · have h3 := m23 h2
      simp [h1, h2, h3]
    · by_cases h3 : (mapGet s3.cache k).isSome
      · simp [h1, h2, h3]
      · simp [h1, h2, h3]

theorem finishNode_cache_mono {V : Type} (g : Graph V) (ctx : Option Nat)
    (n : Nat) (pr : List (Res V) × RunSt V) (k : Key)
    (h : (mapGet pr.2.cache k).isSome) :
    (mapGet (finishNode g ctx n pr).2.cache k).isSome := by
  by_cases hk : k = Key.dep n
  · subst hk
    rw [finishNode_cache_self]
    rfl
  · rw [finishNode_cache_ne g ctx n pr k hk]
    exact h

theorem headRes_cache_mono {V : Type} (g : Graph V) (ctx : Option Nat)
    (fuel : Nat) (dp : Nat ⊕ String) (s : RunSt V) (k : Key)
    (h : (mapGet s.cache k).isSome) :
    (mapGet (headRes g ctx fuel dp s).2.cache k).isSome := by
  rw [headRes_state_eq]
  exact visits_cache_mono g ctx fuel [dp] s k h

/-- At-most-once accounting for one walk: the provider invocation count
of a node, and the number of timing records of the node, each grow by at
most the key-creation indicator of its cache key (so by at most one, and
only when the walk created the entry of the node).  Needs acyclicity:
on a cyclic graph the JavaScript deadlocks instead. -/
theorem visits_bound {V : Type} (g : Graph V) (ctx : Option Nat)
    (hacyc : AcyclicRel (DependsOnE g)) :
    ∀ (fuel : Nat) (ds : List (Nat ⊕ String)) (s : RunSt V) (n : Nat),
      ((visits g ctx fuel ds s).2.sys.node n).calls ≤
        (s.sys.node n).calls + newInd s (visits g ctx fuel ds s).2 (Key.dep n) ∧
      ((visits g ctx fuel ds s).2.timings).count n ≤
        (s.timings).count n + newInd s (visits g ctx fuel ds s).2 (Key.dep n) := by
  intro fuel
  induction fuel using Nat.strong_induction_on with
  | _ fuel ihf =>
    intro ds
    induction ds with
    | nil =>
      intro s n
      rw [visits_nil]
      rw [newInd_self]
      exact ⟨Nat.le_refl _, Nat.le_refl _⟩
    | cons dp rest ihl =>
      intro s n
      rw [visits_cons]
      have hheadmono : ∀ k, (mapGet s.cache k).isSome →
          (mapGet (headRes g ctx fuel dp s).2.cache k).isSome :=
        fun k => headRes_cache_mono g ctx fuel dp s k
      have htailmono : ∀ k, (mapGet (headRes g ctx fuel dp s).2.cache k).isSome →
          (mapGet (visits g ctx fuel rest (headRes g ctx fuel dp s).2).2.cache k).isSome :=
        fun k => visits_cache_mono g ctx fuel rest (headRes g ctx fuel dp s).2 k
      have hsplit := newInd_add s (headRes g ctx fuel dp s).2
        (visits g ctx fuel rest (headRes g ctx fuel dp s).2).2 (Key.dep n)
        (hheadmono _) (htailmono _)
      have htail := ihl (headRes g ctx fuel dp s).2 n
      have hhead :
          ((headRes g ctx fuel dp s).2.sys.node n).calls ≤
            (s.sys.node n).calls + newInd s (headRes g ctx fuel dp s).2 (Key.dep n) ∧
          ((headRes g ctx fuel dp s).2.timings).count n ≤
            (s.timings).count n + newInd s (headRes g ctx fuel dp s).2 (Key.dep n) := by
        cases hlook : mapGet (enrollStep ctx dp s).cache (keyOf dp) with
        | some r2 =>
          simp only [headRes, hlook]
          rw [enrollStep_calls, enrollStep_timings]
          exact ⟨Nat.le_add_right _ _, Nat.le_add_right _ _⟩
        | none =>
          rcases fuel with _ | fuel1
          · simp only [headRes, hlook]
            rw [enrollStep_calls, enrollStep_timings]
            exact ⟨Nat.le_add_right _ _, Nat.le_add_right _ _⟩
          · cases dp with
            | inr p =>
              simp only [headRes, hlook]
              rw [enrollStep_calls, enrollStep_timings]
              exact ⟨Nat.le_add_right _ _, Nat.le_add_right _ _⟩
            | inl m =>
              have hinner := ihf fuel1 (Nat.lt_succ_self _) (g.edges m)
                (enrollStep ctx (Sum.inl m) s) n
              by_cases hmn : m = n
              · subst hmn
                have hnone0 : mapGet (enrollStep ctx (Sum.inl m) s).cache (Key.dep m) = none := hlook
                have hnone1 :
                    mapGet (visits g ctx fuel1 (g.edges m)
                      (enrollStep ctx (Sum.inl m) s)).2.cache (Key.dep m) = none := by
                  rw [visits_newKeys g ctx fuel1 (g.edges m) _ (Key.dep m)
                    (fun e he => no_reach_self hacyc m e he)]
                  exact hnone0
                have hzero := newInd_zero_of_none (enrollStep ctx (Sum.inl m) s)
                  (visits g ctx fuel1 (g.edges m) (enrollStep ctx (Sum.inl m) s)).2
                  (Key.dep m) hnone1
                rw [hzero] at hinner
                simp only [headRes, hlook]
                have hone : newInd s
                    (finishNode g ctx m (visits g ctx fuel1 (g.edges m)
                      (enrollStep ctx (Sum.inl m) s))).2 (Key.dep m) = 1 := by
                  refine newInd_one _ _ _ ?_ ?_
                  · rw [← enrollStep_cache ctx (Sum.inl m) s]
                    exact hnone0
                  · rw [finishNode_cache_self]
                    rfl
                rw [hone]
                have hfc := finishNode_calls_le g ctx m
                  (visits g ctx fuel1 (g.edges m) (enrollStep ctx (Sum.inl m) s))
                have hft := finishNode_timings_count g ctx m
                  (visits g ctx fuel1 (g.edges m) (enrollStep ctx (Sum.inl m) s)) m
                rw [if_pos rfl] at hft
                have hec := enrollStep_calls ctx (Sum.inl m) s m
                have het := enrollStep_timings ctx (Sum.inl m) s
                constructor
                · calc ((finishNode g ctx m (visits g ctx fuel1 (g.edges m)
                        (enrollStep ctx (Sum.inl m) s))).2.sys.node m).calls
                      ≤ _ + 1 := hfc
                    _ ≤ (s.sys.node m).calls + 1 := by
                        have := hinner.1
                        omega
                · calc ((finishNode g ctx m (visits g ctx fuel1 (g.edges m)
                        (enrollStep ctx (Sum.inl m) s))).2.timings).count m
                      ≤ _ + 1 := hft
                    _ ≤ (s.timings).count m + 1 := by
                        have h2 := hinner.2
                        rw [het] at h2
                        omega
              · simp only [headRes, hlook]
                have hfin := finishNode_node_ne g ctx m
                  (visits g ctx fuel1 (g.edges m) (enrollStep ctx (Sum.inl m) s)) n
                  (fun hc => hmn hc.symm)
                have hft := finishNode_timings_count g ctx m
                  (visits g ctx fuel1 (g.edges m) (enrollStep ctx (Sum.inl m) s)) n
                rw [if_neg (fun hc => hmn hc.symm), Nat.add_zero] at hft
                have hle : newInd (enrollStep ctx (Sum.inl m) s)
                    (visits g ctx fuel1 (g.edges m) (enrollStep ctx (Sum.inl m) s)).2
                    (Key.dep n) ≤
                    newInd s (finishNode g ctx m (visits g ctx fuel1 (g.edges m)
                      (enrollStep ctx (Sum.inl m) s))).2 (Key.dep n) := by
                  unfold newInd
                  split
                  · next hc =>
                    rw [if_pos ?_]
                    refine ⟨finishNode_cache_mono g ctx m _ _ hc.1, ?_⟩
                    rw [← enrollStep_cache ctx (Sum.inl m) s]
                    exact hc.2
                  · omega
                have hec := enrollStep_calls ctx (Sum.inl m) s n
                have het := enrollStep_timings ctx (Sum.inl m) s
                constructor
                · rw [hfin]
                  have := hinner.1
                  omega
                · have h2 := hinner.2
                  rw [het] at h2
                  omega
      rw [hsplit]
      obtain ⟨hh1, hh2⟩ := hhead
      obtain ⟨ht1, ht2⟩ := htail
      dsimp only
      exact ⟨by omega, by omega⟩

/-- Requesting a reference whose key is cached returns the cached handle
unchanged. -/
theorem visits_cached_head {V : Type} (g : Graph V) (ctx : Option Nat)
    (f : Nat) (dp : Nat ⊕ String) (s : RunSt V) (r : Res V)
    (h : mapGet s.cache (keyOf dp) = some r) :
    (visits g ctx f [dp] s).1 = [r] := by
  rw [visits_cons, visits_nil]
  dsimp only
  have h0 : mapGet (enrollStep ctx dp s).cache (keyOf dp) = some r := by
    rw [enrollStep_cache]
    exact h
  simp only [headRes, h0]

/-- On a cache hit the walk changes nothing beyond the enrollment. -/
theorem visits_cached_state {V : Type} (g : Graph V) (ctx : Option Nat)
    (f : Nat) (dp : Nat ⊕ String) (s : RunSt V) (r : Res V)
    (h : mapGet s.cache (keyOf dp) = some r) :
    (visits g ctx f [dp] s).2 = enrollStep ctx dp s := by
  rw [visits_cons, visits_nil]
  dsimp only
  have h0 : mapGet (enrollStep ctx dp s).cache (keyOf dp) = some r := by
    rw [enrollStep_cache]
    exact h
  simp only [headRes, h0]

/-- After a singleton walk with positive fuel, the cache holds the
returned handle under the key of the requested reference. -/
theorem visits_retcache {V : Type} (g : Graph V) (ctx : Option Nat)
    (f : Nat) (dp : Nat ⊕ String) (s : RunSt V) :
    mapGet (visits g ctx (f + 1) [dp] s).2.cache (keyOf dp) =
      some ((visits g ctx (f + 1) [dp] s).1.headD (Except.error "no result")) := by
  rw [visits_cons, visits_nil]
  dsimp only
  cases hlook : mapGet (enrollStep ctx dp s).cache (keyOf dp) with
  | some r =>
    simp only [headRes, hlook]
    simp [enrollStep_cache] at hlook
    simp [enrollStep_cache, hlook]
  | none =>
    cases dp with
    | inr p =>
      simp only [headRes, hlook]
      rw [mapGet_mapSet_self]
      rfl
    | inl n =>
      simp only [headRes, hlook]
      rw [show keyOf (Sum.inl n) = Key.dep n from rfl, finishNode_cache_self]
      rfl

/-- Seeding preserves the entry of every Dependency key (the execution-id
and meta writes use other keys; a present execution-id entry is written
back unchanged). -/
theorem seedCache_preserved {V : Type} (params : List (Key × Res V))
    (freshId : String) (k : Key) (r : Res V) (hk : k ≠ Key.metaDep)
    (h : mapGet params k = some r) :
    mapGet (seedCache params freshId) k = some r := by
  unfold seedCache
  rw [mapGet_mapSet_ne _ _ _ _ hk]
  by_cases hid : k = Key.param "_id"
  · subst hid
    rw [h, mapGet_mapSet_self]
  · rw [mapGet_mapSet_ne _ _ _ _ hid]
    exact h

/-- Seeding does not create entries for Dependency keys. -/
theorem seedCache_dep {V : Type} (params : List (Key × Res V))
    (freshId : String) (n : Nat) :
    mapGet (seedCache params freshId) (Key.dep n) = mapGet params (Key.dep n) := by
  unfold seedCache
  rw [mapGet_mapSet_ne _ _ _ _ (by simp), mapGet_mapSet_ne _ _ _ _ (by simp)]

/-- Seeding always leaves an execution-id entry in the map. -/
theorem seedCache_execId {V : Type} (params : List (Key × Res V))
    (freshId : String) :
    (mapGet (seedCache params freshId) (Key.param "_id")).isSome := by
  unfold seedCache
  rw [mapGet_mapSet_ne _ _ _ _ (by simp), mapGet_mapSet_self]
  rfl

/-- Seeding stores the meta object reference of this run. -/
theorem seedCache_meta {V : Type} (params : List (Key × Res V))
    (freshId : String) :
    mapGet (seedCache params freshId) Key.metaDep =
      some (Except.ok CVal.metaRef) := by
  unfold seedCache
  rw [mapGet_mapSet_self]

/-- The run entry point in terms of the walk over the seeded state. -/
theorem runDep_eq {V : Type} (g : Graph V) (ctx : Option Nat) (fuel : Nat)
    (root : Nat ⊕ String) (params : List (Key × Res V)) (freshId : String)
    (sys : Sys V) :
    runDep g ctx fuel root params freshId sys =
      ((visits g ctx fuel [root] ⟨sys, seedCache params freshId, []⟩).1.headD
          (Except.error "no result"),
        (visits g ctx fuel [root] ⟨sys, seedCache params freshId, []⟩).2) := rfl

/-- C1: within one run invocation over an acyclic graph, every node has
its provider invoked at most once (the invocation count grows by at most
one), at most one timing record per node is appended to the timings of
this run, and a dependent that requests a node with a cached handle
receives exactly that handle from the per-run cache. -/
theorem c1_at_most_once_per_run {V : Type} (g : Graph V) (ctx : Option Nat)
    (fuel : Nat) (root : Nat ⊕ String) (params : List (Key × Res V))
    (freshId : String) (sys : Sys V)
    (hacyc : AcyclicRel (DependsOnE g)) :
    (∀ n : Nat, ((runDep g ctx fuel root params freshId sys).2.sys.node n).calls ≤
        (sys.node n).calls + 1) ∧
    (∀ n : Nat, ((runDep g ctx fuel root params freshId sys).2.timings).count n ≤ 1) ∧
    (∀ (n : Nat) (r2 : Res V) (f2 : Nat),
        mapGet (runDep g ctx fuel root params freshId sys).2.cache (Key.dep n) =
          some r2 →
        (visits g ctx f2 [Sum.inl n]
          (runDep g ctx fuel root params freshId sys).2).1 = [r2]) := by
  rw [runDep_eq]
  dsimp only
  have hb := visits_bound g ctx hacyc fuel [root] ⟨sys, seedCache params freshId, []⟩
  refine ⟨?_, ?_, ?_⟩
  · intro n
    have h1 := (hb n).1
    have h2 := newInd_le_one ⟨sys, seedCache params freshId, []⟩
      (visits g ctx fuel [root] ⟨sys, seedCache params freshId, []⟩).2 (Key.dep n)
    dsimp only at h1
    omega
  · intro n
    have h1 := (hb n).2
    have h2 := newInd_le_one ⟨sys, seedCache params freshId, []⟩
      (visits g ctx fuel [root] ⟨sys, seedCache params freshId, []⟩).2 (Key.dep n)
    dsimp only at h1
    simp only [List.count_nil] at h1
    omega
  · intro n r2 f2 h
    exact visits_cached_head g ctx f2 (Sum.inl n) _ r2 h

/-- A provider argument list concatenated as strings (used by the
concrete witnesses that mirror the diamond example). -/
def strcat (args : List (CVal String)) : String :=
  args.foldl
    (fun acc a =>
      acc ++ (match a with
        | CVal.v s => s
        | CVal.str s => s
        | CVal.metaRef => ""))
    ""

/-- The diamond graph of the specification examples: A with no edges, B
depending on A, C on A and B, D on B and C; providers concatenate. -/
def diamondG : Graph String where
  kind := fun _ => NodeKind.transient
  edges := fun n =>
    match n with
    | 1 => [Sum.inl 0]
    | 2 => [Sum.inl 0, Sum.inl 1]
    | 3 => [Sum.inl 1, Sum.inl 2]
    | _ => []
  inv := fun n =>
    match n with
    | 0 => [1, 2]
    | 1 => [2, 3]
    | 2 => [3]
    | _ => []
  provider := fun n _ args =>
    match n with
    | 0 => Except.ok "A"
    | 1 => Except.ok (strcat args ++ "B")
    | 2 => Except.ok (strcat args ++ "C")
    | 3 => Except.ok (strcat args ++ "D")
    | _ => Except.error "unknown node"

/-- The pristine system: every node READY, nothing memoized, no calls,
no context holds anything. -/
def sysInit : Sys String :=
  ⟨fun _ => ⟨DepStatus.ready, none, 0, []⟩, fun _ => [], fun _ => 0⟩

theorem diamond_acyclic : AcyclicRel (DependsOnE diamondG) := by
  apply acyclic_of_rank _ (fun n => n)
  intro a b h
  unfold DependsOnE diamondG at h
  rcases a with _ | _ | _ | _ | a
  · simp at h
  · simp at h
    omega
  · simp at h
    rcases h with h | h <;> omega
  · simp at h
    rcases h with h | h <;> omega
  · simp at h

/-- C1 witness: the theorem on the concrete diamond run, together with
the concretely evaluated run: result ABAABCD, one timing per node, one
provider call per node. -/
theorem c1_at_most_once_per_run_witness :
    AcyclicRel (DependsOnE diamondG) ∧
    (∀ n : Nat, ((runDep diamondG (some 0) 9 (Sum.inl 3) [] "run1" sysInit).2.sys.node n).calls ≤
        (sysInit.node n).calls + 1) ∧
    (∀ n : Nat, ((runDep diamondG (some 0) 9 (Sum.inl 3) [] "run1" sysInit).2.timings).count n ≤ 1) ∧
    (runDep diamondG (some 0) 9 (Sum.inl 3) [] "run1" sysInit).1 =
      Except.ok (CVal.v "ABAABCD") ∧
    (runDep diamondG (some 0) 9 (Sum.inl 3) [] "run1" sysInit).2.timings = [0, 1, 2, 3] := by
  have h := c1_at_most_once_per_run diamondG (some 0) 9 (Sum.inl 3) [] "run1"
    sysInit diamond_acyclic
  exact ⟨diamond_acyclic, h.1, h.2.1, by rfl, by rfl⟩

/-- The one-node graph used by the override example: a transient node 0
with no edges whose provider returns A. -/
def mockG : Graph String :=
  ⟨fun _ => NodeKind.transient, fun _ => [], fun _ => [],
    fun _ _ _ => Except.ok "A"⟩

/-- C2 counterexample: running with a mock override for the node in the
params map does skip its provider (call count stays zero, the mock value
is returned), but the node IS enrolled in the passed Context: it appears
in the member set of the context and the context appears in its
contextMembership, because getPromiseFromDep calls context.add before
consulting the cache.  This refutes the claimed non-enrollment. -/
theorem c2_mocked_node_is_enrolled :
    ((runDep mockG (some 7) 3 (Sum.inl 0)
        [(Key.dep 0, Except.ok (CVal.v "mock"))] "id" sysInit).2.sys.node 0).calls = 0 ∧
    (runDep mockG (some 7) 3 (Sum.inl 0)
        [(Key.dep 0, Except.ok (CVal.v "mock"))] "id" sysInit).1 =
      Except.ok (CVal.v "mock") ∧
    (runDep mockG (some 7) 3 (Sum.inl 0)
        [(Key.dep 0, Except.ok (CVal.v "mock"))] "id" sysInit).2.sys.ctx 7 = [0] ∧
    ((runDep mockG (some 7) 3 (Sum.inl 0)
        [(Key.dep 0, Except.ok (CVal.v "mock"))] "id" sysInit).2.sys.node 0).contextItems =
      [7] := by
  refine ⟨rfl, rfl, rfl, rfl⟩

/-- C2 amended: when the params map contains the node as a key, the
provider of the node is never invoked during that run (whatever the
root), and a run rooted at the node returns the mapped mock value; the
node is nevertheless enrolled in the passed Context (member set and
contextMembership both updated), since enrollment happens before the
cache lookup. -/
theorem c2_override_bypass_amended {V : Type} (g : Graph V) (c : Nat)
    (fuel : Nat) (root : Nat ⊕ String) (params : List (Key × Res V))
    (freshId : String) (sys : Sys V) (n : Nat) (r : Res V)
    (hp : mapGet params (Key.dep n) = some r) :
    ((runDep g (some c) fuel root params freshId sys).2.sys.node n).calls =
      (sys.node n).calls ∧
    (runDep g (some c) fuel (Sum.inl n) params freshId sys).1 = r ∧
    n ∈ (runDep g (some c) fuel (Sum.inl n) params freshId sys).2.sys.ctx c ∧
    c ∈ ((runDep g (some c) fuel (Sum.inl n) params freshId sys).2.sys.node n).contextItems := by
  have hseed : mapGet (seedCache params freshId) (Key.dep n) = some r := by
    rw [seedCache_dep]
    exact hp
  have hkey : mapGet (seedCache params freshId) (keyOf (Sum.inl n)) = some r := hseed
  refine ⟨?_, ?_, ?_, ?_⟩
  · rw [runDep_eq]
    dsimp only
    exact visits_calls_of_cached g (some c) fuel [root]
      ⟨sys, seedCache params freshId, []⟩ n (by rw [hseed]; rfl)
  · rw [runDep_eq]
    dsimp only
    rw [visits_cached_head g (some c) fuel (Sum.inl n) _ r hkey]
    rfl
  · rw [runDep_eq]
    dsimp only
    rw [visits_cached_state g (some c) fuel (Sum.inl n) _ r hkey]
    show n ∈ (Sys.enroll _ c n).ctx c
    rw [Sys.ctx_enroll, if_pos rfl]
    exact self_mem_addDistinct n _
  · rw [runDep_eq]
    dsimp only
    rw [visits_cached_state g (some c) fuel (Sum.inl n) _ r hkey]
    show c ∈ ((Sys.enroll _ c n).node n).contextItems
    rw [Sys.node_enroll, if_pos rfl]
    exact self_mem_addDistinct c _

/-- C2 witness: the amended theorem on the concrete mock run. -/
theorem c2_override_bypass_amended_witness :
    ((runDep mockG (some 7) 3 (Sum.inl 0)
        [(Key.dep 0, Except.ok (CVal.v "mock"))] "id" sysInit).2.sys.node 0).calls =
      (sysInit.node 0).calls ∧
    (runDep mockG (some 7) 3 (Sum.inl 0)
        [(Key.dep 0, Except.ok (CVal.v "mock"))] "id" sysInit).1 =
      Except.ok (CVal.v "mock") ∧
    0 ∈ (runDep mockG (some 7) 3 (Sum.inl 0)
        [(Key.dep 0, Except.ok (CVal.v "mock"))] "id" sysInit).2.sys.ctx 7 ∧
    7 ∈ ((runDep mockG (some 7) 3 (Sum.inl 0)
        [(Key.dep 0, Except.ok (CVal.v "mock"))] "id" sysInit).2.sys.node 0).contextItems :=
  c2_override_bypass_amended mockG 7 3 (Sum.inl 0)
    [(Key.dep 0, Except.ok (CVal.v "mock"))] "id" sysInit 0
    (Except.ok (CVal.v "mock")) rfl

/-- The graph of the C4 counterexample: a ResourceDependency (node 0)
whose single edge is the parameter p. -/
def c4g : Graph String :=
  ⟨fun _ => NodeKind.resource,
    fun n => match n with | 0 => [Sum.inr "p"] | _ => [],
    fun _ => [],
    fun _ _ _ => Except.ok "R"⟩

/-- C4 counterexample: the resource provider succeeded once (first run
supplies parameter p, memoizes R, one invocation), yet a second run that
reaches the very same node resolves to a MissingArgument rejection, not
to the memoized value, because the per-run cache entry of the node is the
rejection of its edge resolution and getValue is never consulted.  The
memo and the single invocation survive, but the run does not resolve the
node to the same underlying value as claimed. -/
theorem c4_second_run_can_reject :
    (runDep c4g none 3 (Sum.inl 0)
        [(Key.param "p", Except.ok (CVal.v "x"))] "i1" sysInit).1 =
      Except.ok (CVal.v "R") ∧
    ((runDep c4g none 3 (Sum.inl 0)
        [(Key.param "p", Except.ok (CVal.v "x"))] "i1" sysInit).2.sys.node 0).calls = 1 ∧
    ((runDep c4g none 3 (Sum.inl 0)
        [(Key.param "p", Except.ok (CVal.v "x"))] "i1" sysInit).2.sys.node 0).memo =
      some (Except.ok "R") ∧
    (runDep c4g none 3 (Sum.inl 0) [] "i2"
        (runDep c4g none 3 (Sum.inl 0)
          [(Key.param "p", Except.ok (CVal.v "x"))] "i1" sysInit).2.sys).1 =
      Except.error "Missing argument: p" ∧
    (runDep c4g none 3 (Sum.inl 0) [] "i2"
        (runDep c4g none 3 (Sum.inl 0)
          [(Key.param "p", Except.ok (CVal.v "x"))] "i1" sysInit).2.sys).1 ≠
      (runDep c4g none 3 (Sum.inl 0)
        [(Key.param "p", Except.ok (CVal.v "x"))] "i1" sysInit).1 ∧
    ((runDep c4g none 3 (Sum.inl 0) [] "i2"
        (runDep c4g none 3 (Sum.inl 0)
          [(Key.param "p", Except.ok (CVal.v "x"))] "i1" sysInit).2.sys).2.sys.node 0).calls =
      1 :=
  ⟨rfl, rfl, rfl, rfl, fun h => Except.noConfusion h, rfl⟩

/-- C4 amended: once the provider of a ResourceDependency has succeeded,
every later run leaves the memo in place and never invokes the provider
again (so the provider runs exactly once across those runs, whatever the
root and parameters); and every later run rooted at the node in which the
node is not overridden and its edge resolution fulfils resolves to the
same memoized value.  (A later run whose edge resolution rejects, for
example a run missing one of the parameters of the node, rejects instead,
which is what the counterexample exhibits.) -/
theorem c4_resource_memoization_amended {V : Type} (g : Graph V)
    (ctx : Option Nat) (fuel : Nat) (root : Nat ⊕ String)
    (params : List (Key × Res V)) (freshId : String) (sys : Sys V)
    (n : Nat) (v : V)
    (hk : g.kind n = NodeKind.resource)
    (hm : (sys.node n).memo = some (Except.ok v)) :
    ((runDep g ctx fuel root params freshId sys).2.sys.node n).memo =
      some (Except.ok v) ∧
    ((runDep g ctx fuel root params freshId sys).2.sys.node n).calls =
      (sys.node n).calls ∧
    (∀ (f : Nat) (args : List (CVal V)),
      mapGet params (Key.dep n) = none →
      combineAll (visits g ctx f (g.edges n)
        (enrollStep ctx (Sum.inl n)
          ⟨sys, seedCache params freshId, []⟩)).1 = Except.ok args →
      (runDep g ctx (f + 1) (Sum.inl n) params freshId sys).1 =
        Except.ok (CVal.v v)) := by
  have hmem := visits_resource_memo g ctx fuel [root]
    ⟨sys, seedCache params freshId, []⟩ n (Except.ok v) hk hm
  refine ⟨?_, ?_, ?_⟩
  · rw [runDep_eq]
    exact hmem.1
  · rw [runDep_eq]
    exact hmem.2
  · intro f args hnone hcomb
    rw [runDep_eq]
    dsimp only
    rw [visits_cons, visits_nil]
    dsimp only
    have hlook : mapGet (enrollStep ctx (Sum.inl n)
        ⟨sys, seedCache params freshId, []⟩).cache (keyOf (Sum.inl n)) = none := by
      rw [enrollStep_cache]
      show mapGet (seedCache params freshId) (Key.dep n) = none
      rw [seedCache_dep]
      exact hnone
    simp only [headRes, hlook]
    have hmemo1 := (visits_resource_memo g ctx f (g.edges n)
      (enrollStep ctx (Sum.inl n) ⟨sys, seedCache params freshId, []⟩) n
      (Except.ok v) hk (by rw [enrollStep_memo]; exact hm)).1
    rcases hvv : visits g ctx f (g.edges n)
      (enrollStep ctx (Sum.inl n) ⟨sys, seedCache params freshId, []⟩) with ⟨rs1, s1⟩
    rw [hvv] at hcomb hmemo1
    have hngv := nodeGetValue_resource_memo g n args s1.sys (Except.ok v) hk hmemo1
    simp only [finishNode, hcomb, hngv]
    rfl

/-- C4 witness: after the successful first run of the counterexample
graph, the amended theorem applied with a well-supplied second run: the
memo survives, the provider is not re-invoked, and the second run
resolves to the memoized R. -/
theorem c4_resource_memoization_amended_witness :
    ((runDep c4g none 2 (Sum.inl 0)
        [(Key.param "p", Except.ok (CVal.v "y"))] "i3"
        (runDep c4g none 3 (Sum.inl 0)
          [(Key.param "p", Except.ok (CVal.v "x"))] "i1" sysInit).2.sys).2.sys.node 0).memo =
      some (Except.ok "R") ∧
    ((runDep c4g none 2 (Sum.inl 0)
        [(Key.param "p", Except.ok (CVal.v "y"))] "i3"
        (runDep c4g none 3 (Sum.inl 0)
          [(Key.param "p", Except.ok (CVal.v "x"))] "i1" sysInit).2.sys).2.sys.node 0).calls =
      ((runDep c4g none 3 (Sum.inl 0)
          [(Key.param "p", Except.ok (CVal.v "x"))] "i1" sysInit).2.sys.node 0).calls ∧
    (runDep c4g none 2 (Sum.inl 0)
        [(Key.param "p", Except.ok (CVal.v "y"))] "i3"
        (runDep c4g none 3 (Sum.inl 0)
          [(Key.param "p", Except.ok (CVal.v "x"))] "i1" sysInit).2.sys).1 =
      Except.ok (CVal.v "R") := by
  have h := c4_resource_memoization_amended c4g none 2 (Sum.inl 0)
    [(Key.param "p", Except.ok (CVal.v "y"))] "i3"
    (runDep c4g none 3 (Sum.inl 0)
      [(Key.param "p", Except.ok (CVal.v "x"))] "i1" sysInit).2.sys 0 "R" rfl rfl
  exact ⟨h.1, h.2.1, h.2.2 1 [CVal.v "y"] rfl rfl⟩

/-- C10: run works in the caller-supplied map itself: after a run the map
holds the EXECUTION_ID entry, the META_DEPENDENCY entry, the pending
handle of the root, and entries only for references visited from the
root; handing that same map to a second run of the root makes it reuse
the cached handles: it returns the same settled result and invokes no
provider at all (call counts of every node, transient ones included, are
unchanged). -/
theorem c10_params_map_mutation_reuse {V : Type} (g : Graph V)
    (ctx : Option Nat) (f : Nat) (root : Nat ⊕ String)
    (params : List (Key × Res V)) (freshId freshId2 : String) (sys : Sys V) :
    (mapGet (runDep g ctx (f + 1) root params freshId sys).2.cache
        (Key.param "_id")).isSome ∧
    mapGet (runDep g ctx (f + 1) root params freshId sys).2.cache Key.metaDep =
      some (Except.ok CVal.metaRef) ∧
    mapGet (runDep g ctx (f + 1) root params freshId sys).2.cache (keyOf root) =
      some (runDep g ctx (f + 1) root params freshId sys).1 ∧
    (∀ k : Key,
      mapGet (runDep g ctx (f + 1) root params freshId sys).2.cache k ≠
        mapGet (seedCache params freshId) k →
      Reach g root k) ∧
    (∀ f2 : Nat,
      (runDep g ctx f2 root
        (runDep g ctx (f + 1) root params freshId sys).2.cache freshId2
        (runDep g ctx (f + 1) root params freshId sys).2.sys).1 =
      (runDep g ctx (f + 1) root params freshId sys).1) ∧
    (∀ (f2 n : Nat),
      ((runDep g ctx f2 root
        (runDep g ctx (f + 1) root params freshId sys).2.cache freshId2
        (runDep g ctx (f + 1) root params freshId sys).2.sys).2.sys.node n).calls =
      ((runDep g ctx (f + 1) root params freshId sys).2.sys.node n).calls) := by
  have hid : (mapGet (runDep g ctx (f + 1) root params freshId sys).2.cache
      (Key.param "_id")).isSome := by
    rw [runDep_eq]
    exact visits_cache_mono g ctx (f + 1) [root] _ _ (seedCache_execId params freshId)
  have hmeta : mapGet (runDep g ctx (f + 1) root params freshId sys).2.cache
      Key.metaDep = some (Except.ok CVal.metaRef) := by
    rw [runDep_eq]
    exact visits_cache_stable g ctx (f + 1) [root] _ _ _ (seedCache_meta params freshId)
  have hroot : mapGet (runDep g ctx (f + 1) root params freshId sys).2.cache
      (keyOf root) = some (runDep g ctx (f + 1) root params freshId sys).1 := by
    rw [runDep_eq]
    exact visits_retcache g ctx f root _
  have hkeyne : keyOf root ≠ Key.metaDep := by
    cases root <;> simp [keyOf]
  have hseed2 : mapGet (seedCache
      (runDep g ctx (f + 1) root params freshId sys).2.cache freshId2)
      (keyOf root) = some (runDep g ctx (f + 1) root params freshId sys).1 :=
    seedCache_preserved _ freshId2 (keyOf root) _ hkeyne hroot
  refine ⟨hid, hmeta, hroot, ?_, ?_, ?_⟩
  · intro k hne
    by_contra hnr
    refine hne ?_
    rw [runDep_eq]
    exact visits_newKeys g ctx (f + 1) [root] _ k
      (by intro dp hdp; rw [List.mem_singleton] at hdp; subst hdp; exact hnr)
  · intro f2
    conv_lhs => rw [runDep_eq]
    dsimp only
    rw [visits_cached_head g ctx f2 root _ _ hseed2]
    rfl
  · intro f2 n
    conv_lhs => rw [runDep_eq]
    dsimp only
    rw [visits_cached_state g ctx f2 root _ _ hseed2]
    exact enrollStep_calls ctx root _ n

/-- C10 witness: the theorem on the concrete diamond run: reusing the
mutated map makes the second run return ABAABCD again with all call
counts still one. -/
theorem c10_params_map_mutation_reuse_witness :
    mapGet (runDep diamondG none 9 (Sum.inl 3) [] "r1" sysInit).2.cache
        Key.metaDep = some (Except.ok CVal.metaRef) ∧
    (runDep diamondG none 4 (Sum.inl 3)
        (runDep diamondG none 9 (Sum.inl 3) [] "r1" sysInit).2.cache "r2"
        (runDep diamondG none 9 (Sum.inl 3) [] "r1" sysInit).2.sys).1 =
      (runDep diamondG none 9 (Sum.inl 3) [] "r1" sysInit).1 ∧
    ((runDep diamondG none 4 (Sum.inl 3)
        (runDep diamondG none 9 (Sum.inl 3) [] "r1" sysInit).2.cache "r2"
        (runDep diamondG none 9 (Sum.inl 3) [] "r1" sysInit).2.sys).2.sys.node 1).calls =
      ((runDep diamondG none 9 (Sum.inl 3) [] "r1" sysInit).2.sys.node 1).calls ∧
    (runDep diamondG none 9 (Sum.inl 3) [] "r1" sysInit).1 =
      Except.ok (CVal.v "ABAABCD") := by
  have h := c10_params_map_mutation_reuse diamondG none 8 (Sum.inl 3) [] "r1" "r2" sysInit
  exact ⟨h.2.1, h.2.2.2.2.1 4, h.2.2.2.2.2 4 1, rfl⟩

/-! The concurrent teardown walk of Context._execInverse.  runFuncOnDep
is an async function: its stale-member check, the removal of the member
and the recursive map over the inverse edges all run synchronously (the
map invokes the recursive calls depth-first up to their first await), so
one whole claim cascade is atomic; the transitions themselves run behind
awaits and interleave.  A visitor that finds a member already removed
returns at once without awaiting the in-flight teardown of that node, so
such a node is not a spawn child of the visitor and is not awaited. -/

/-- One synchronous claim cascade over a worklist: a present member is
removed, its inverse edges are visited depth-first (its spawn children
are those claimed fresh by this visit), and an absent member is skipped.
Returns the state after all removals, the association of every claimed
node with its spawn children, and the nodes claimed at this level. -/
def cascadeLevel {V : Type} (g : Graph V) (c : Nat)
    (deeper : List Nat → Sys V → Sys V × List (Nat × List Nat) × List Nat) :
    List Nat → Sys V → Sys V × List (Nat × List Nat) × List Nat
  | [], s => (s, [], [])
  | d :: ds, s =>
    if d ∈ s.ctx c then
      ((deeper ds (deeper (g.inv d) (s.ctxRemove c d)).1).1,
        (d, (deeper (g.inv d) (s.ctxRemove c d)).2.2) ::
          ((deeper (g.inv d) (s.ctxRemove c d)).2.1 ++
            (deeper ds (deeper (g.inv d) (s.ctxRemove c d)).1).2.1),
        d :: (deeper ds (deeper (g.inv d) (s.ctxRemove c d)).1).2.2)
    else cascadeLevel g c deeper ds s

/-- The claim cascade with fuel (the member count suffices, since every
claim removes a member). -/
def cascadeL {V : Type} (g : Graph V) (c : Nat) :
    Nat → List Nat → Sys V → Sys V × List (Nat × List Nat) × List Nat
  | 0 => fun _ s => (s, [], [])
  | fuel + 1 => cascadeLevel g c (cascadeL g c fuel)

/-- The spawn children recorded for a node in the claim association. -/
def childrenOf : List (Nat × List Nat) → Nat → List Nat
  | [], _ => []
  | p :: t, d => if p.1 = d then p.2 else childrenOf t d

/-- Events of the concurrent teardown: the synchronous claim cascade
launched by the driver on the first remaining member, the start of one
node's shutdown/reset transition, and its settlement (the transition
effect applied, the SUCCESS event emitted). -/
inductive TEvent where
  | cascadeE : Nat → TEvent
  | beginT : Nat → TEvent
  | endT : Nat → TEvent
deriving DecidableEq, Repr

/-- The teardown machine state: the system, the claim association built
by the cascades so far, the transitions begun and ended, and the root
the driver is currently awaiting. -/
structure TSt (V : Type) where
  sys : Sys V
  tree : List (Nat × List Nat)
  begun : List Nat
  ended : List Nat
  root : Option Nat

/-- The machine before the teardown starts. -/
def tinit {V : Type} (s : Sys V) : TSt V := ⟨s, [], [], [], none⟩

/-- Enabledness: the driver cascades from the first remaining member
only after the previous root task completed; a claimed node may begin
its transition once all its spawn children have ended (a stale hit left
no child, so it is not waited for); a begun transition may end once. -/
def tok {V : Type} (c : Nat) (st : TSt V) : TEvent → Bool
  | TEvent.cascadeE r =>
    decide (st.root = none) && decide ((st.sys.ctx c).head? = some r)
  | TEvent.beginT d =>
    (st.tree.map Prod.fst).contains d && !(st.begun.contains d) &&
      (childrenOf st.tree d).all (fun x => st.ended.contains x)
  | TEvent.endT d => st.begun.contains d && !(st.ended.contains d)

/-- Effect of one event: the cascade claims synchronously and installs
the root; a transition end applies the shutdown/reset to the node and
releases the driver when the root itself ends. -/
def tstep {V : Type} (g : Graph V) (mode : DepStatus) (c : Nat) (st : TSt V) :
    TEvent → TSt V
  | TEvent.cascadeE r =>
    ⟨(cascadeL g c (st.sys.ctx c).length [r] st.sys).1,
      st.tree ++ (cascadeL g c (st.sys.ctx c).length [r] st.sys).2.1,
      st.begun, st.ended, some r⟩
  | TEvent.beginT d => ⟨st.sys, st.tree, d :: st.begun, st.ended, st.root⟩
  | TEvent.endT d =>
    ⟨(shutNode g mode d st.sys).2, st.tree, st.begun, d :: st.ended,
      if st.root = some d then none else st.root⟩

/-- Run a trace of teardown events. -/
def trun {V : Type} (g : Graph V) (mode : DepStatus) (c : Nat) (st : TSt V) :
    List TEvent → TSt V
  | [] => st
  | e :: es => trun g mode c (tstep g mode c st e) es

/-- A trace is valid when every event is enabled when it fires. -/
def tvalid {V : Type} (g : Graph V) (mode : DepStatus) (c : Nat) (st : TSt V) :
    List TEvent → Bool
  | [] => true
  | e :: es => tok c st e && tvalid g mode c (tstep g mode c st e) es

theorem casc_zero {V : Type} (g : Graph V) (c : Nat) (ds : List Nat)
    (s : Sys V) : cascadeL g c 0 ds s = (s, [], []) := rfl

theorem casc_nil {V : Type} (g : Graph V) (c : Nat) (fuel : Nat) (s : Sys V) :
    cascadeL g c fuel [] s = (s, [], []) := by
  cases fuel <;> rfl

theorem casc_cons_mem {V : Type} (g : Graph V) (c : Nat) (fuel : Nat)
    (d : Nat) (ds : List Nat) (s : Sys V) (h : d ∈ s.ctx c) :
    cascadeL g c (fuel + 1) (d :: ds) s =
      ((cascadeL g c fuel ds
          (cascadeL g c fuel (g.inv d) (s.ctxRemove c d)).1).1,
        (d, (cascadeL g c fuel (g.inv d) (s.ctxRemove c d)).2.2) ::
          ((cascadeL g c fuel (g.inv d) (s.ctxRemove c d)).2.1 ++
            (cascadeL g c fuel ds
              (cascadeL g c fuel (g.inv d) (s.ctxRemove c d)).1).2.1),
        d :: (cascadeL g c fuel ds
          (cascadeL g c fuel (g.inv d) (s.ctxRemove c d)).1).2.2) := by
  show cascadeLevel g c (cascadeL g c fuel) (d :: ds) s = _
  simp only [cascadeLevel, if_pos h]

theorem casc_cons_not {V : Type} (g : Graph V) (c : Nat) (fuel : Nat)
    (d : Nat) (ds : List Nat) (s : Sys V) (h : d ∉ s.ctx c) :
    cascadeL g c (fuel + 1) (d :: ds) s = cascadeL g c (fuel + 1) ds s := by
  show cascadeLevel g c (cascadeL g c fuel) (d :: ds) s = _
  simp only [cascadeLevel, if_neg h]
  rfl

theorem childrenOf_append_left (t1 t2 : List (Nat × List Nat)) (d : Nat)
    (h : d ∈ t1.map Prod.fst) :
    childrenOf (t1 ++ t2) d = childrenOf t1 d := by
  induction t1 with
  | nil => exact absurd h (List.not_mem_nil d)
  | cons p t1 ih =>
    by_cases hp : p.1 = d
    · simp [childrenOf, hp]
    · rw [List.map_cons, List.mem_cons] at h
      rcases h with h | h
      · exact absurd h.symm hp
      · simp [childrenOf, hp, ih h]

/-- The cascade only ever removes context members: the member list
afterwards is a sublist of the one before. -/
theorem casc_ctx_sublist {V : Type} (g : Graph V) (c : Nat) :
    ∀ (fuel : Nat) (ds : List Nat) (s : Sys V),
      ((cascadeL g c fuel ds s).1.ctx c).Sublist (s.ctx c) := by
  intro fuel
  induction fuel with
  | zero =>
    intro ds s
    rw [casc_zero]
  | succ fuel ihf =>
    intro ds
    induction ds with
    | nil =>
      intro s
      rw [casc_nil]
    | cons d ds ihl =>
      intro s
      by_cases hd : d ∈ s.ctx c
      · rw [casc_cons_mem g c fuel d ds s hd]
        dsimp only
        have h1 := ihf (g.inv d) (s.ctxRemove c d)
        have h2 := ihf ds (cascadeL g c fuel (g.inv d) (s.ctxRemove c d)).1
        have herase : (s.ctxRemove c d).ctx c = (s.ctx c).erase d := by
          rw [Sys.ctx_ctxRemove, if_pos rfl]
        refine h2.trans (h1.trans ?_)
        rw [herase]
        exact List.erase_sublist d (s.ctx c)
      · rw [casc_cons_not g c fuel d ds s hd]
        exact ihl s

/-- Every claimed node was a member when the cascade started. -/
theorem casc_keys_sub {V : Type} (g : Graph V) (c : Nat) :
    ∀ (fuel : Nat) (ds : List Nat) (s : Sys V) (x : Nat),
      x ∈ (cascadeL g c fuel ds s).2.1.map Prod.fst → x ∈ s.ctx c := by
  intro fuel
  induction fuel with
  | zero =>
    intro ds s x hx
    rw [casc_zero] at hx
    exact absurd hx (List.not_mem_nil x)
  | succ fuel ihf =>
    intro ds
    induction ds with
    | nil =>
      intro s x hx
      rw [casc_nil] at hx
      exact absurd hx (List.not_mem_nil x)
    | cons d ds ihl =>
      intro s x hx
      by_cases hd : d ∈ s.ctx c
      · rw [casc_cons_mem g c fuel d ds s hd] at hx
        dsimp only at hx
        rw [List.map_cons, List.map_append] at hx
        have herase : (s.ctxRemove c d).ctx c = (s.ctx c).erase d := by
          rw [Sys.ctx_ctxRemove, if_pos rfl]
        rcases List.mem_cons.mp hx with rfl | hx
        · exact hd
        · rcases List.mem_append.mp hx with hx | hx
          · have h1 := ihf (g.inv d) (s.ctxRemove c d) x hx
            rw [herase] at h1
            exact (List.erase_sublist d (s.ctx c)).mem h1
          · have h1 := ihf ds _ x hx
            have h2 := (casc_ctx_sublist g c fuel (g.inv d) (s.ctxRemove c d)).mem h1
            rw [herase] at h2
            exact (List.erase_sublist d (s.ctx c)).mem h2
      · rw [casc_cons_not g c fuel d ds s hd] at hx
        exact ihl s x hx

/-- Cascade bookkeeping: assuming the member list has no duplicates, the
claimed nodes are distinct, and afterwards a node is a member exactly
when it was one before and was not claimed. -/
theorem casc_char {V : Type} (g : Graph V) (c : Nat) :
    ∀ (fuel : Nat) (ds : List Nat) (s : Sys V), (s.ctx c).Nodup →
      (((cascadeL g c fuel ds s).2.1.map Prod.fst).Nodup ∧
       (∀ x, x ∈ (cascadeL g c fuel ds s).1.ctx c ↔
         (x ∈ s.ctx c ∧ x ∉ (cascadeL g c fuel ds s).2.1.map Prod.fst))) := by
  intro fuel
  induction fuel with
  | zero =>
    intro ds s _
    rw [casc_zero]
    simp
  | succ fuel ihf =>
    intro ds
    induction ds with
    | nil =>
      intro s _
      rw [casc_nil]
      simp
    | cons d ds ihl =>
      intro s hnd
      by_cases hd : d ∈ s.ctx c
      · rw [casc_cons_mem g c fuel d ds s hd]
        dsimp only
        rw [List.map_cons, List.map_append]
        have herase : (s.ctxRemove c d).ctx c = (s.ctx c).erase d := by
          rw [Sys.ctx_ctxRemove, if_pos rfl]
        have hmem_er : ∀ x, x ∈ (s.ctxRemove c d).ctx c ↔
            (x ≠ d ∧ x ∈ s.ctx c) := by
          intro x
          rw [herase]
          exact List.Nodup.mem_erase_iff hnd
        have hnd1 : ((s.ctxRemove c d).ctx c).Nodup := by
          rw [herase]
          exact hnd.erase d
        obtain ⟨hk1nd, hchar1⟩ := ihf (g.inv d) (s.ctxRemove c d) hnd1
        have hnd2 : ((cascadeL g c fuel (g.inv d) (s.ctxRemove c d)).1.ctx c).Nodup :=
          (casc_ctx_sublist g c fuel (g.inv d) (s.ctxRemove c d)).nodup hnd1
        obtain ⟨hk2nd, hchar2⟩ := ihf ds
          (cascadeL g c fuel (g.inv d) (s.ctxRemove c d)).1 hnd2
        have hk2sub : ∀ x, x ∈ (cascadeL g c fuel ds
            (cascadeL g c fuel (g.inv d) (s.ctxRemove c d)).1).2.1.map Prod.fst →
            x ∈ (cascadeL g c fuel (g.inv d) (s.ctxRemove c d)).1.ctx c :=
          fun x hx => casc_keys_sub g c fuel ds _ x hx
        have hd_not1 : d ∉ (cascadeL g c fuel (g.inv d)
            (s.ctxRemove c d)).2.1.map Prod.fst := by
          intro hc2
          have := casc_keys_sub g c fuel (g.inv d) _ d hc2
          exact ((hmem_er d).1 this).1 rfl
        have hd_not2 : d ∉ (cascadeL g c fuel ds
            (cascadeL g c fuel (g.inv d) (s.ctxRemove c d)).1).2.1.map Prod.fst := by
          intro hc2
          have := ((hchar1 d).1 (hk2sub d hc2)).1
          exact ((hmem_er d).1 this).1 rfl
        refine ⟨?_, ?_⟩
        · refine List.nodup_cons.mpr ⟨?_, List.Nodup.append hk1nd hk2nd ?_⟩
          · intro hc2
            rcases List.mem_append.mp hc2 with hc2 | hc2
            · exact hd_not1 hc2
            · exact hd_not2 hc2
          · intro x hx1 hx2
            exact ((hchar1 x).1 (hk2sub x hx2)).2 hx1
        · intro x
          rw [hchar2 x, hchar1 x, hmem_er x]
          simp only [List.mem_cons, List.mem_append]
          constructor
          · rintro ⟨⟨⟨hxd, hxs⟩, hxk1⟩, hxk2⟩
            exact ⟨hxs, fun hc2 => by
              rcases hc2 with hc2 | hc2
              · exact hxd hc2
              · rcases hc2 with hc2 | hc2
                · exact hxk1 hc2
                · exact hxk2 hc2⟩
          · rintro ⟨hxs, hno⟩
            exact ⟨⟨⟨fun hxd => hno (Or.inl hxd), hxs⟩,
              fun hc2 => hno (Or.inr (Or.inl hc2))⟩,
              fun hc2 => hno (Or.inr (Or.inr hc2))⟩
      · rw [casc_cons_not g c fuel d ds s hd]
        exact ihl s hnd

/-- With fuel at least the member count, every worklist node is out of
the context when the cascade returns. -/
theorem casc_full {V : Type} (g : Graph V) (c : Nat) :
    ∀ (fuel : Nat) (ds : List Nat) (s : Sys V), (s.ctx c).Nodup →
      (s.ctx c).length ≤ fuel →
      ∀ d ∈ ds, d ∉ (cascadeL g c fuel ds s).1.ctx c := by
  intro fuel
  induction fuel with
  | zero =>
    intro ds s _ hlen d _
    rw [casc_zero]
    rw [List.length_eq_zero.mp (Nat.le_zero.mp hlen)]
    exact List.not_mem_nil d
  | succ fuel ihf =>
    intro ds
    induction ds with
    | nil =>
      intro s _ _ d hd
      exact absurd hd (List.not_mem_nil d)
    | cons e ds ihl =>
      intro s hnd hlen d hd
      by_cases he : e ∈ s.ctx c
      · rw [casc_cons_mem g c fuel e ds s he]
        dsimp only
        have herase : (s.ctxRemove c e).ctx c = (s.ctx c).erase e := by
          rw [Sys.ctx_ctxRemove, if_pos rfl]
        have hnd1 : ((s.ctxRemove c e).ctx c).Nodup := by
          rw [herase]
          exact hnd.erase e
        have hlen1 : ((s.ctxRemove c e).ctx c).length ≤ fuel := by
          rw [herase, List.length_erase_of_mem he]
          omega
        have hsub1 := casc_ctx_sublist g c fuel (g.inv e) (s.ctxRemove c e)
        have hnd2 : ((cascadeL g c fuel (g.inv e) (s.ctxRemove c e)).1.ctx c).Nodup :=
          hsub1.nodup hnd1
        have hlen2 : ((cascadeL g c fuel (g.inv e)
            (s.ctxRemove c e)).1.ctx c).length ≤ fuel :=
          le_trans hsub1.length_le hlen1
        have hsub2 := casc_ctx_sublist g c fuel ds
          (cascadeL g c fuel (g.inv e) (s.ctxRemove c e)).1
        rcases List.mem_cons.mp hd with rfl | hd2
        · intro hmemfinal
          have h1 := hsub1.mem (hsub2.mem hmemfinal)
          rw [herase] at h1
          exact (List.Nodup.mem_erase_iff hnd).1 h1 |>.1 rfl
        · exact ihf ds _ hnd2 hlen2 d hd2
      · rw [casc_cons_not g c fuel e ds s he]
        rcases List.mem_cons.mp hd with rfl | hd2
        · intro hmemfinal
          exact he ((casc_ctx_sublist g c (fuel + 1) ds s).mem hmemfinal)
        · exact ihl s hnd hlen d hd2

/-- The closure property of a full-fuel cascade: no claimed node has a
dependent (inverse edge) still in the context afterwards — the visitor
of each claim synchronously removed or found already removed every one
of its inverse edges. -/
theorem casc_closure {V : Type} (g : Graph V) (c : Nat) :
    ∀ (fuel : Nat) (ds : List Nat) (s : Sys V), (s.ctx c).Nodup →
      (s.ctx c).length ≤ fuel →
      ∀ x, x ∈ (cascadeL g c fuel ds s).2.1.map Prod.fst →
        ∀ y, y ∈ g.inv x → y ∉ (cascadeL g c fuel ds s).1.ctx c := by
  intro fuel
  induction fuel with
  | zero =>
    intro ds s _ _ x hx
    rw [casc_zero] at hx
    exact absurd hx (List.not_mem_nil x)
  | succ fuel ihf =>
    intro ds
    induction ds with
    | nil =>
      intro s _ _ x hx
      rw [casc_nil] at hx
      exact absurd hx (List.not_mem_nil x)
    | cons e ds ihl =>
      intro s hnd hlen x hx y hy
      by_cases he : e ∈ s.ctx c
      · rw [casc_cons_mem g c fuel e ds s he] at hx ⊢
        dsimp only at hx ⊢
        rw [List.map_cons, List.map_append] at hx
        have herase : (s.ctxRemove c e).ctx c = (s.ctx c).erase e := by
          rw [Sys.ctx_ctxRemove, if_pos rfl]
        have hnd1 : ((s.ctxRemove c e).ctx c).Nodup := by
          rw [herase]
          exact hnd.erase e
        have hlen1 : ((s.ctxRemove c e).ctx c).length ≤ fuel := by
          rw [herase, List.length_erase_of_mem he]
          omega
        have hsub1 := casc_ctx_sublist g c fuel (g.inv e) (s.ctxRemove c e)
        have hnd2 : ((cascadeL g c fuel (g.inv e) (s.ctxRemove c e)).1.ctx c).Nodup :=
          hsub1.nodup hnd1
        have hlen2 : ((cascadeL g c fuel (g.inv e)
            (s.ctxRemove c e)).1.ctx c).length ≤ fuel :=
          le_trans hsub1.length_le hlen1
        have hsub2 := casc_ctx_sublist g c fuel ds
          (cascadeL g c fuel (g.inv e) (s.ctxRemove c e)).1
        rcases List.mem_cons.mp hx with rfl | hx
        · -- the head claim: its inverse edges went through the deeper
          -- worklist, so they are gone after it and stay gone
          have h1 := casc_full g c fuel (g.inv x) (s.ctxRemove c x) hnd1 hlen1 y hy
          intro hc2
          exact h1 (hsub2.mem hc2)
        · rcases List.mem_append.mp hx with hx | hx
          · have h1 := ihf (g.inv e) (s.ctxRemove c e) hnd1 hlen1 x hx y hy
            intro hc2
            exact h1 (hsub2.mem hc2)
          · exact ihf ds _ hnd2 hlen2 x hx y hy
      · rw [casc_cons_not g c fuel e ds s he] at hx ⊢
        exact ihl s hnd hlen x hx y hy

/-- A false containment check refutes membership. -/
theorem not_mem_of_contains_false {α : Type} [BEq α] [LawfulBEq α]
    (l : List α) (a : α) (h : l.contains a = false) : a ∉ l := by
  intro hmem
  have h2 := (List.elem_iff.mpr hmem).symm.trans h
  exact absurd h2 (by decide)

/-- Inductive invariant of the concurrent teardown, over the initial
member list m0: the member list stays duplicate-free and within m0;
every initial member is still a member or already claimed; claimed
nodes are out of the member list, and so is every dependent (inverse
edge) of a claimed node — the cascade that claimed a node synchronously
removed or found already removed all its dependents; transitions begin
only on claimed nodes, end only after beginning, fire at most once, and
a begun node has all its spawn children ended. -/
def TInv {V : Type} (g : Graph V) (c : Nat) (m0 : List Nat) (st : TSt V) : Prop :=
  (st.sys.ctx c).Nodup ∧
  (∀ x, x ∈ st.sys.ctx c → x ∈ m0) ∧
  (∀ x, x ∈ m0 → x ∈ st.sys.ctx c ∨ x ∈ st.tree.map Prod.fst) ∧
  (∀ d, d ∈ st.tree.map Prod.fst → d ∉ st.sys.ctx c) ∧
  (∀ d, d ∈ st.tree.map Prod.fst → ∀ x, x ∈ g.inv d → x ∉ st.sys.ctx c) ∧
  (∀ d, d ∈ st.begun → d ∈ st.tree.map Prod.fst) ∧
  (∀ d, d ∈ st.ended → d ∈ st.begun) ∧
  st.begun.Nodup ∧ st.ended.Nodup ∧
  (∀ d, d ∈ st.begun → ∀ x, x ∈ childrenOf st.tree d → x ∈ st.ended)

/-- One enabled teardown event preserves the invariant. -/
theorem tinv_step {V : Type} (g : Graph V) (mode : DepStatus) (c : Nat)
    (m0 : List Nat) (st : TSt V) (e : TEvent) (hinv : TInv g c m0 st)
    (hok : tok c st e = true) : TInv g c m0 (tstep g mode c st e) := by
  obtain ⟨h1, h2, h3, h4, h5, h6, h7, h8, h9, h10⟩ := hinv
  cases e with
  | cascadeE r =>
    obtain ⟨hknd, hchar⟩ :=
      casc_char g c (st.sys.ctx c).length [r] st.sys h1
    have hsub := casc_ctx_sublist g c (st.sys.ctx c).length [r] st.sys
    have hclo := casc_closure g c (st.sys.ctx c).length [r] st.sys h1 (le_refl _)
    refine ⟨hsub.nodup h1, ?_, ?_, ?_, ?_, ?_, h7, h8, h9, ?_⟩
    · intro x hx
      exact h2 x (hsub.mem hx)
    · intro x hx
      rcases h3 x hx with hx2 | hx2
      · by_cases hk : x ∈ (cascadeL g c (st.sys.ctx c).length [r]
            st.sys).2.1.map Prod.fst
        · refine Or.inr ?_
          show x ∈ (st.tree ++
            (cascadeL g c (st.sys.ctx c).length [r] st.sys).2.1).map Prod.fst
          rw [List.map_append]
          exact List.mem_append.mpr (Or.inr hk)
        · exact Or.inl ((hchar x).2 ⟨hx2, hk⟩)
      · refine Or.inr ?_
        show x ∈ (st.tree ++
          (cascadeL g c (st.sys.ctx c).length [r] st.sys).2.1).map Prod.fst
        rw [List.map_append]
        exact List.mem_append.mpr (Or.inl hx2)
    · intro d hd hc2
      have hd2 : d ∈ (st.tree ++
          (cascadeL g c (st.sys.ctx c).length [r] st.sys).2.1).map Prod.fst := hd
      rw [List.map_append] at hd2
      rcases List.mem_append.mp hd2 with hd3 | hd3
      · exact h4 d hd3 (hsub.mem hc2)
      · exact ((hchar d).1 hc2).2 hd3
    · intro d hd x hx hc2
      have hd2 : d ∈ (st.tree ++
          (cascadeL g c (st.sys.ctx c).length [r] st.sys).2.1).map Prod.fst := hd
      rw [List.map_append] at hd2
      rcases List.mem_append.mp hd2 with hd3 | hd3
      · exact h5 d hd3 x hx (hsub.mem hc2)
      · exact hclo d hd3 x hx hc2
    · intro d hd
      show d ∈ (st.tree ++
        (cascadeL g c (st.sys.ctx c).length [r] st.sys).2.1).map Prod.fst
      rw [List.map_append]
      exact List.mem_append.mpr (Or.inl (h6 d hd))
    · intro d hd x hx
      have hx2 : x ∈ childrenOf (st.tree ++
          (cascadeL g c (st.sys.ctx c).length [r] st.sys).2.1) d := hx
      rw [childrenOf_append_left st.tree _ d (h6 d hd)] at hx2
      exact h10 d hd x hx2
  | beginT d =>
    simp only [tok, Bool.and_eq_true, Bool.not_eq_true'] at hok
    obtain ⟨⟨hdk, hdnb⟩, hch⟩ := hok
    have hdkm : d ∈ st.tree.map Prod.fst := List.elem_iff.mp hdk
    have hdnbm : d ∉ st.begun := not_mem_of_contains_false _ d hdnb
    have hchm : ∀ x ∈ childrenOf st.tree d, x ∈ st.ended := by
      intro x hx
      exact List.elem_iff.mp (List.all_eq_true.mp hch x hx)
    refine ⟨h1, h2, h3, h4, h5, ?_, ?_, ?_, h9, ?_⟩
    · intro d2 hd2
      rcases List.mem_cons.mp hd2 with rfl | hd2
      · exact hdkm
      · exact h6 d2 hd2
    · intro d2 hd2
      exact List.mem_cons_of_mem d (h7 d2 hd2)
    · exact List.nodup_cons.mpr ⟨hdnbm, h8⟩
    · intro d2 hd2 x hx
      rcases List.mem_cons.mp hd2 with rfl | hd2
      · exact hchm x hx
      · exact h10 d2 hd2 x hx
  | endT d =>
    simp only [tok, Bool.and_eq_true, Bool.not_eq_true'] at hok
    obtain ⟨hdb, hdne⟩ := hok
    have hdbm : d ∈ st.begun := List.elem_iff.mp hdb
    have hdnem : d ∉ st.ended := not_mem_of_contains_false _ d hdne
    have hctxeq : (tstep g mode c st (TEvent.endT d)).sys.ctx c =
        st.sys.ctx c := congrFun (shutNode_ctx g mode d st.sys) c
    refine ⟨?_, ?_, ?_, ?_, ?_, h6, ?_, h8, ?_, ?_⟩
    · rw [hctxeq]
      exact h1
    · intro x hx
      rw [hctxeq] at hx
      exact h2 x hx
    · intro x hx
      rw [hctxeq]
      exact h3 x hx
    · intro d2 hd2
      rw [hctxeq]
      exact h4 d2 hd2
    · intro d2 hd2 x hx
      rw [hctxeq]
      exact h5 d2 hd2 x hx
    · intro d2 hd2
      rcases List.mem_cons.mp hd2 with rfl | hd2
      · exact hdbm
      · exact h7 d2 hd2
    · exact List.nodup_cons.mpr ⟨hdnem, h9⟩
    · intro d2 hd2 x hx
      exact List.mem_cons_of_mem d (h10 d2 hd2 x hx)

/-- The invariant holds along every valid trace. -/
theorem tinv_trun {V : Type} (g : Graph V) (mode : DepStatus) (c : Nat)
    (m0 : List Nat) :
    ∀ (es : List TEvent) (st : TSt V), TInv g c m0 st →
      tvalid g mode c st es = true → TInv g c m0 (trun g mode c st es) := by
  intro es
  induction es with
  | nil =>
    intro st h _
    exact h
  | cons e es ih =>
    intro st hinv hv
    simp only [tvalid, Bool.and_eq_true] at hv
    exact ih (tstep g mode c st e) (tinv_step g mode c m0 st e hinv hv.1) hv.2

/-- Validity splits over concatenation. -/
theorem tvalid_append {V : Type} (g : Graph V) (mode : DepStatus) (c : Nat) :
    ∀ (es1 es2 : List TEvent) (st : TSt V),
      tvalid g mode c st (es1 ++ es2) = true ↔
        (tvalid g mode c st es1 = true ∧
          tvalid g mode c (trun g mode c st es1) es2 = true) := by
  intro es1
  induction es1 with
  | nil =>
    intro es2 st
    simp [tvalid, trun]
  | cons e es1 ih =>
    intro es2 st
    show (tok c st e && tvalid g mode c (tstep g mode c st e) (es1 ++ es2)) =
        true ↔
      ((tok c st e && tvalid g mode c (tstep g mode c st e) es1) = true ∧
        tvalid g mode c (trun g mode c (tstep g mode c st e) es1) es2 = true)
    rw [Bool.and_eq_true, Bool.and_eq_true, ih es2 (tstep g mode c st e)]
    exact and_assoc.symm

/-- A node has ended exactly when an end event for it is in the trace. -/
theorem trun_ended_mem {V : Type} (g : Graph V) (mode : DepStatus) (c : Nat) :
    ∀ (es : List TEvent) (st : TSt V) (d : Nat),
      d ∈ (trun g mode c st es).ended ↔
        (d ∈ st.ended ∨ TEvent.endT d ∈ es) := by
  intro es
  induction es with
  | nil =>
    intro st d
    simp [trun]
  | cons e es ih =>
    intro st d
    rw [show trun g mode c st (e :: es) =
      trun g mode c (tstep g mode c st e) es from rfl]
    rw [ih (tstep g mode c st e) d]
    cases e with
    | cascadeE r =>
      simp [tstep, List.mem_cons]
    | beginT d2 =>
      simp [tstep, List.mem_cons]
    | endT d2 =>
      simp only [tstep, List.mem_cons, TEvent.endT.injEq]
      constructor
      · rintro ((rfl | h) | h)
        · exact Or.inr (Or.inl rfl)
        · exact Or.inl h
        · exact Or.inr (Or.inr h)
      · rintro (h | (rfl | h))
        · exact Or.inl (Or.inr h)
        · exact Or.inl (Or.inl rfl)
        · exact Or.inr h

/-- The begin count over a trace adds the begin events of the trace. -/
theorem trun_begun_count {V : Type} (g : Graph V) (mode : DepStatus) (c : Nat) :
    ∀ (es : List TEvent) (st : TSt V) (d : Nat),
      ((trun g mode c st es).begun).count d =
        (st.begun).count d + es.count (TEvent.beginT d) := by
  intro es
  induction es with
  | nil =>
    intro st d
    simp [trun]
  | cons e es ih =>
    intro st d
    rw [show trun g mode c st (e :: es) =
      trun g mode c (tstep g mode c st e) es from rfl]
    rw [ih (tstep g mode c st e) d]
    cases e with
    | cascadeE r =>
      simp [tstep, List.count_cons]
    | beginT d2 =>
      simp only [tstep, List.count_cons, TEvent.beginT.injEq]
      by_cases hd : d2 = d
      · subst hd
        simp
        omega
      · simp [hd, Ne.symm hd]
    | endT d2 =>
      simp [tstep, List.count_cons]

/-- The end count over a trace adds the end events of the trace. -/
theorem trun_ended_count {V : Type} (g : Graph V) (mode : DepStatus) (c : Nat) :
    ∀ (es : List TEvent) (st : TSt V) (d : Nat),
      ((trun g mode c st es).ended).count d =
        (st.ended).count d + es.count (TEvent.endT d) := by
  intro es
  induction es with
  | nil =>
    intro st d
    simp [trun]
  | cons e es ih =>
    intro st d
    rw [show trun g mode c st (e :: es) =
      trun g mode c (tstep g mode c st e) es from rfl]
    rw [ih (tstep g mode c st e) d]
    cases e with
    | cascadeE r =>
      simp [tstep, List.count_cons]
    | beginT d2 =>
      simp [tstep, List.count_cons]
    | endT d2 =>
      simp only [tstep, List.count_cons, TEvent.endT.injEq]
      by_cases hd : d2 = d
      · subst hd
        simp
        omega
      · simp [hd, Ne.symm hd]

/-- The diamond graph for C3: nodes 1 and 2 depend on node 0, and node 3
depends on both 1 and 2 — so the inverse edges of 0 are 1 and 2, and 3
is an inverse edge of both 1 and 2. -/
def gd3 : Graph String :=
  ⟨fun _ => NodeKind.resource,
    fun m =>
      if m = 3 then [Sum.inl 1, Sum.inl 2]
      else if m = 1 ∨ m = 2 then [Sum.inl 0] else [],
    fun m =>
      if m = 0 then [1, 2] else if m = 1 ∨ m = 2 then [3] else [],
    fun _ _ _ => Except.ok "X"⟩

/-- Context 0 holds the whole diamond, the shared dependency 0 first in
the member list, every node memoized and held only by context 0. -/
def s3c : Sys String :=
  ⟨fun m =>
      if m ≤ 3 then ⟨DepStatus.ready, some (Except.ok "X"), 1, [0]⟩
      else ⟨DepStatus.ready, none, 0, []⟩,
    fun c => if c = 0 then [0, 1, 2, 3] else [],
    fun _ => 0⟩

/-- The prefix of the overlapping schedule: the single cascade claims the
whole diamond (3 is claimed inside the subtree of 1, so the visit from 2
finds it stale and spawns no await edge), then the transition of 3
begins. -/
def tr3pre : List TEvent := [TEvent.cascadeE 0, TEvent.beginT 3]

/-- The rest of the overlapping schedule after the transition of 2 has
begun: 3 settles only afterwards, then 1 and finally the root 0. -/
def tr3post : List TEvent :=
  [TEvent.endT 2, TEvent.endT 3, TEvent.beginT 1, TEvent.endT 1,
    TEvent.beginT 0, TEvent.endT 0]

/-- The full overlapping schedule of the diamond teardown. -/
def tr3 : List TEvent := tr3pre ++ TEvent.beginT 2 :: tr3post

/-- The split of the schedule at the transition begin of node 1, used to
exercise the amended ordering guarantee on an awaited (fresh) child. -/
def tr3w1 : List TEvent :=
  [TEvent.cascadeE 0, TEvent.beginT 3, TEvent.beginT 2, TEvent.endT 2,
    TEvent.endT 3]

/-- The schedule tail after the transition begin of node 1. -/
def tr3w2 : List TEvent :=
  [TEvent.endT 1, TEvent.beginT 0, TEvent.endT 0]

/-- C3 counterexample: on the diamond with the shared dependency first,
the claim cascade reaches node 3 through node 1, so the visitor from
node 2 hits the stale-member branch and does not await the in-flight
teardown of 3.  The exhibited schedule is valid and complete, yet the
transition of node 2 begins while the transition of its dependent 3 has
begun and not yet completed — 3 depends on 2 and both were members, so
the dependent does not complete (and its SUCCESS event is not emitted)
before the dependency's shutdown begins. -/
theorem c3_teardown_overlap_counterexample :
    tvalid gd3 DepStatus.shutdown 0 (tinit s3c) tr3 = true ∧
    tr3 = tr3pre ++ TEvent.beginT 2 :: tr3post ∧
    (3 : Nat) ∈ gd3.inv 2 ∧ 3 ∈ s3c.ctx 0 ∧ 2 ∈ s3c.ctx 0 ∧
    3 ∈ (trun gd3 DepStatus.shutdown 0 (tinit s3c) tr3pre).begun ∧
    3 ∉ (trun gd3 DepStatus.shutdown 0 (tinit s3c) tr3pre).ended ∧
    TEvent.endT 3 ∉ tr3pre ∧ TEvent.endT 3 ∈ tr3post ∧
    (trun gd3 DepStatus.shutdown 0 (tinit s3c) tr3).sys.ctx 0 = [] ∧
    (trun gd3 DepStatus.shutdown 0 (tinit s3c) tr3).root = none := by
  decide

/-- C3 amended: in the concurrent teardown, when any transition begins,
every dependent of the node (and in particular every initial member
among them) has already been evicted from the context and enrolled in
the claim association, so its own teardown task has been launched; every
spawn child of the node — a dependent the visitor found still present
and therefore awaited — has fully completed before the node's transition
begins; and every node begins and ends at most once.  Strict
complete-before-begin for all member dependents holds only through the
awaited spawn edges: a dependent reached first through another path is
stale for this visitor and may still be in flight. -/
theorem c3_reverse_topological_teardown_amended {V : Type} (g : Graph V)
    (mode : DepStatus) (c : Nat) (s : Sys V) (hnd : (s.ctx c).Nodup)
    (es : List TEvent) (hv : tvalid g mode c (tinit s) es = true) :
    (∀ es1 B es2, es = es1 ++ TEvent.beginT B :: es2 →
      ∀ A, A ∈ g.inv B →
        A ∉ (trun g mode c (tinit s) es1).sys.ctx c ∧
        (A ∈ s.ctx c →
          A ∈ (trun g mode c (tinit s) es1).tree.map Prod.fst)) ∧
    (∀ es1 B es2, es = es1 ++ TEvent.beginT B :: es2 →
      ∀ A, A ∈ childrenOf (trun g mode c (tinit s) es1).tree B →
        TEvent.endT A ∈ es1 ∧
        [TEvent.endT A, TEvent.beginT B].Sublist es) ∧
    (∀ d, es.count (TEvent.beginT d) ≤ 1 ∧ es.count (TEvent.endT d) ≤ 1) := by
  have hbase : TInv g c (s.ctx c) (tinit s) := by
    refine ⟨hnd, fun x hx => hx, fun x hx => Or.inl hx, ?_, ?_, ?_, ?_,
      List.nodup_nil, List.nodup_nil, ?_⟩
    · intro d hd
      exact absurd hd (List.not_mem_nil d)
    · intro d hd
      exact absurd hd (List.not_mem_nil d)
    · intro d hd
      exact absurd hd (List.not_mem_nil d)
    · intro d hd
      exact absurd hd (List.not_mem_nil d)
    · intro d hd
      exact absurd hd (List.not_mem_nil d)
  refine ⟨?_, ?_, ?_⟩
  · intro es1 B es2 hsplit A hAB
    subst hsplit
    have hsp := (tvalid_append g mode c es1 (TEvent.beginT B :: es2)
      (tinit s)).mp hv
    have hinv1 := tinv_trun g mode c (s.ctx c) es1 (tinit s) hbase hsp.1
    have hok : tok c (trun g mode c (tinit s) es1) (TEvent.beginT B) = true := by
      have h2 := hsp.2
      simp only [tvalid, Bool.and_eq_true] at h2
      exact h2.1
    simp only [tok, Bool.and_eq_true, Bool.not_eq_true'] at hok
    obtain ⟨⟨hBk, _⟩, _⟩ := hok
    have hBkm : B ∈ (trun g mode c (tinit s) es1).tree.map Prod.fst :=
      List.elem_iff.mp hBk
    obtain ⟨_, _, h3, _, h5, _⟩ := hinv1
    refine ⟨h5 B hBkm A hAB, ?_⟩
    intro hA
    rcases h3 A hA with h | h
    · exact absurd h (h5 B hBkm A hAB)
    · exact h
  · intro es1 B es2 hsplit A hchild
    subst hsplit
    have hsp := (tvalid_append g mode c es1 (TEvent.beginT B :: es2)
      (tinit s)).mp hv
    have hok : tok c (trun g mode c (tinit s) es1) (TEvent.beginT B) = true := by
      have h2 := hsp.2
      simp only [tvalid, Bool.and_eq_true] at h2
      exact h2.1
    simp only [tok, Bool.and_eq_true, Bool.not_eq_true'] at hok
    obtain ⟨_, hch⟩ := hok
    have hAend : A ∈ (trun g mode c (tinit s) es1).ended :=
      List.elem_iff.mp (List.all_eq_true.mp hch A hchild)
    have hmem : TEvent.endT A ∈ es1 := by
      rcases (trun_ended_mem g mode c es1 (tinit s) A).mp hAend with h | h
      · exact absurd h (List.not_mem_nil A)
      · exact h
    refine ⟨hmem, ?_⟩
    have h1 : [TEvent.endT A].Sublist es1 := List.singleton_sublist.mpr hmem
    have h2 : [TEvent.beginT B].Sublist (TEvent.beginT B :: es2) :=
      List.singleton_sublist.mpr (List.mem_cons_self _ _)
    exact h1.append h2
  · intro d
    have hinv := tinv_trun g mode c (s.ctx c) es (tinit s) hbase hv
    obtain ⟨_, _, _, _, _, _, _, h8, h9, _⟩ := hinv
    constructor
    · have hc := trun_begun_count g mode c es (tinit s) d
      have h0 : ((tinit s).begun).count d = 0 := rfl
      rw [h0] at hc
      have hle := List.nodup_iff_count_le_one.mp h8 d
      omega
    · have hc := trun_ended_count g mode c es (tinit s) d
      have h0 : ((tinit s).ended).count d = 0 := rfl
      rw [h0] at hc
      have hle := List.nodup_iff_count_le_one.mp h9 d
      omega

/-- C3 witness: the amended theorem applied to the diamond schedule at
the transition begin of node 1, whose spawn child 3 was awaited: the
dependent 3 is out of the context and claimed, its end event precedes
the begin of 1, and each event fires at most once. -/
theorem c3_reverse_topological_teardown_amended_witness :
    ((s3c.ctx 0).Nodup ∧
      tvalid gd3 DepStatus.shutdown 0 (tinit s3c) tr3 = true ∧
      (3 : Nat) ∈ gd3.inv 1 ∧
      3 ∈ childrenOf (trun gd3 DepStatus.shutdown 0 (tinit s3c) tr3w1).tree 1) ∧
    (3 ∉ (trun gd3 DepStatus.shutdown 0 (tinit s3c) tr3w1).sys.ctx 0 ∧
      (3 ∈ s3c.ctx 0 →
        3 ∈ (trun gd3 DepStatus.shutdown 0
          (tinit s3c) tr3w1).tree.map Prod.fst)) ∧
    (TEvent.endT 3 ∈ tr3w1 ∧
      [TEvent.endT 3, TEvent.beginT 1].Sublist tr3) ∧
    tr3.count (TEvent.beginT 3) ≤ 1 := by
  refine ⟨⟨by decide, by decide, by decide, by decide⟩, ?_, ?_, ?_⟩
  · exact (c3_reverse_topological_teardown_amended gd3 DepStatus.shutdown 0 s3c
      (by decide) tr3 (by decide)).1 tr3w1 1 tr3w2 (by decide) 3 (by decide)
  · exact (c3_reverse_topological_teardown_amended gd3 DepStatus.shutdown 0 s3c
      (by decide) tr3 (by decide)).2.1 tr3w1 1 tr3w2 (by decide) 3 (by decide)
  · exact ((c3_reverse_topological_teardown_amended gd3 DepStatus.shutdown 0 s3c
      (by decide) tr3 (by decide)).2.2 3).1

/-- C6 witness: the theorem applied to the concrete two-context state. -/
theorem c6_held_node_does_not_shutdown_witness :
    (s6w.node 5).contextItems ≠ [] ∧
    resShutdownOrReset 5 DepStatus.shutdown s6w = (false, s6w) ∧
    ((ctxShutdown g6w 0 s6w).1.node 5).memo = some (Except.ok "D") ∧
    ((ctxShutdown g6w 0 s6w).1.node 5).status = DepStatus.ready ∧
    (ctxShutdown g6w 0 s6w).1.disposals 5 = s6w.disposals 5 ∧
    (ctxShutdown g6w 1 (ctxShutdown g6w 0 s6w).1).1.disposals 5 = s6w.disposals 5 + 1 ∧
    ((ctxShutdown g6w 1 (ctxShutdown g6w 0 s6w).1).1.node 5).memo = none ∧
    ((ctxShutdown g6w 1 (ctxShutdown g6w 0 s6w).1).1.node 5).status = DepStatus.shutdown := by
  have h := c6_held_node_does_not_shutdown (V := String)
  have h2 := h.2 g6w 0 1 5 (Except.ok "D") s6w (by decide) rfl rfl rfl rfl rfl rfl rfl
  exact ⟨by decide, h.1 s6w 5 (by decide), h2.1, h2.2.1, h2.2.2.1,
    h2.2.2.2.1, h2.2.2.2.2.1, h2.2.2.2.2.2⟩

/-! C9: the AsyncStatus gate.  Helper lemmas about event traces, an
inductive invariant for histories that issue at most one change, and the
C9 theorems. -/

/-- An event is the issue of a change. -/
def isChange : GEvent → Bool
  | GEvent.change _ => true
  | _ => false

/-- In a pair list with duplicate-free first components, the first
component determines the second. -/
theorem snd_eq_of_nodup_fst {α β : Type} (l : List (α × β))
    (hnd : (l.map Prod.fst).Nodup) (a : α) (b c : β)
    (hb : (a, b) ∈ l) (hc : (a, c) ∈ l) : b = c := by
  induction l with
  | nil => exact absurd hb (List.not_mem_nil _)
  | cons p l ih =>
    rw [List.map_cons, List.nodup_cons] at hnd
    rcases List.mem_cons.mp hb with hb1 | hb1 <;>
      rcases List.mem_cons.mp hc with hc1 | hc1
    · subst hb1
      exact (((Prod.mk.injEq a c a b).mp hc1).2).symm
    · have h2 : p.1 ∉ l.map Prod.fst := hnd.1
      rw [← hb1] at h2
      exact absurd (List.mem_map_of_mem Prod.fst hc1) h2
    · have h2 : p.1 ∉ l.map Prod.fst := hnd.1
      rw [← hc1] at h2
      exact absurd (List.mem_map_of_mem Prod.fst hb1) h2
    · exact ih hnd.2 hb1 hc1

/-- Targets only grow along a trace, and every new target comes from a
change event of the trace. -/
theorem grun_targets_mem :
    ∀ (es : List GEvent) (s : GSt) (t : String),
      t ∈ (grun s es).targets → t ∈ s.targets ∨ GEvent.change t ∈ es := by
  intro es
  induction es with
  | nil =>
    intro s t h
    exact Or.inl h
  | cons e es ih =>
    intro s t h
    rcases ih (gstep s e) t h with h1 | h1
    · cases e with
      | change t2 =>
        have h2 : t ∈ s.targets ++ [t2] := h1
        rcases List.mem_append.mp h2 with h3 | h3
        · exact Or.inl h3
        · rw [List.mem_singleton] at h3
          subst h3
          exact Or.inr (List.mem_cons_self _ _)
      | settleWork k => exact Or.inl h1
      | applyT k => exact Or.inl h1
      | getCall gid => exact Or.inl h1
      | getResolve gid => exact Or.inl h1
    · exact Or.inr (List.mem_cons_of_mem e h1)

/-- Inductive invariant for gate histories that issue at most one
change: either no change was issued yet (the gate still shows the
initial status), or the single change is pending (status blanked, slot
set, nothing applied yet), or it has applied (status is the target, slot
cleared).  Call records observe at most the single slot, resolutions
record the initial status before the transition applies and the target
after, and a resolution whose call observed the pending slot records the
target. -/
def GInv (i : String) (s : GSt) : Prop :=
  (s.gcalls.map Prod.fst).Nodup ∧
  ((s.targets = [] ∧ s.status = i ∧ s.slot = none ∧ s.preds = [] ∧
      s.settled = [] ∧ s.applied = [] ∧
      (∀ p ∈ s.gcalls, p.2 = (none : Option Nat)) ∧
      (∀ q ∈ s.gresults, q.2 = i) ∧
      (∀ gid v, (gid, v) ∈ s.gresults → (gid, (none : Option Nat)) ∈ s.gcalls)) ∨
   (∃ t, s.targets = [t] ∧ s.status = "" ∧ s.slot = some 0 ∧
      s.preds = [none] ∧ (∀ k ∈ s.settled, k = 0) ∧ s.applied = [] ∧
      (∀ p ∈ s.gcalls, p.2 = (none : Option Nat) ∨ p.2 = some 0) ∧
      (∀ q ∈ s.gresults, q.2 = i) ∧
      (∀ gid v, (gid, v) ∈ s.gresults → (gid, (none : Option Nat)) ∈ s.gcalls)) ∨
   (∃ t, s.targets = [t] ∧ s.status = t ∧ s.slot = none ∧
      s.preds = [none] ∧ (∀ k ∈ s.settled, k = 0) ∧ (∀ k ∈ s.applied, k = 0) ∧
      (∀ p ∈ s.gcalls, p.2 = (none : Option Nat) ∨ p.2 = some 0) ∧
      (∀ q ∈ s.gresults, q.2 = i ∨ q.2 = t) ∧
      (∀ gid v, (gid, v) ∈ s.gresults → (gid, some 0) ∈ s.gcalls → v = t)))

/-- One enabled step preserves the single-change invariant, provided
change events fire only from the no-change-yet state. -/
theorem ginv_step (i : String) (s : GSt) (e : GEvent) (hinv : GInv i s)
    (hok : gok s e = true)
    (hch : ∀ t, e = GEvent.change t → s.targets = []) :
    GInv i (gstep s e) := by
  obtain ⟨hnd, hbr⟩ := hinv
  cases e with
  | change t =>
    have htg : s.targets = [] := hch t rfl
    rcases hbr with hA | hB | hC
    · obtain ⟨htg0, hst, hslot, hpreds, hset, happ, hgc, hgr, hlink⟩ := hA
      refine ⟨hnd, Or.inr (Or.inl ⟨t, ?_, rfl, ?_, ?_, ?_, ?_, ?_, hgr, hlink⟩)⟩
      · show s.targets ++ [t] = [t]
        rw [htg]
        rfl
      · show some s.targets.length = some 0
        rw [htg]
        rfl
      · show s.preds ++ [s.slot] = [none]
        rw [hpreds, hslot]
        rfl
      · show ∀ k ∈ s.settled, k = 0
        rw [hset]
        intro k hk
        exact absurd hk (List.not_mem_nil k)
      · exact happ
      · exact fun p hp => Or.inl (hgc p hp)
    · obtain ⟨t0, htg0, _⟩ := hB
      rw [htg] at htg0
      exact absurd htg0 (by simp)
    · obtain ⟨t0, htg0, _⟩ := hC
      rw [htg] at htg0
      exact absurd htg0 (by simp)
  | settleWork k =>
    simp only [gok, Bool.and_eq_true, decide_eq_true_eq] at hok
    have hk := hok.1
    rcases hbr with hA | hB | hC
    · obtain ⟨htg0, _⟩ := hA
      rw [htg0] at hk
      exact absurd hk (by simp)
    · obtain ⟨t0, htg0, hst, hslot, hpreds, hset, happ, hgc, hgr, hlink⟩ := hB
      refine ⟨hnd, Or.inr (Or.inl ⟨t0, htg0, hst, hslot, hpreds, ?_, happ, hgc, hgr, hlink⟩)⟩
      intro j hj
      rcases List.mem_cons.mp hj with rfl | hj2
      · rw [htg0] at hk
        simp at hk
        omega
      · exact hset j hj2
    · obtain ⟨t0, htg0, hst, hslot, hpreds, hset, happ, hgc, hgr, hlink⟩ := hC
      refine ⟨hnd, Or.inr (Or.inr ⟨t0, htg0, hst, hslot, hpreds, ?_, happ, hgc, hgr, hlink⟩)⟩
      intro j hj
      rcases List.mem_cons.mp hj with rfl | hj2
      · rw [htg0] at hk
        simp at hk
        omega
      · exact hset j hj2
  | applyT k =>
    simp only [gok, Bool.and_eq_true, Bool.not_eq_true'] at hok
    obtain ⟨⟨hks, _⟩, _⟩ := hok
    have hkmem : k ∈ s.settled := List.elem_iff.mp hks
    rcases hbr with hA | hB | hC
    · obtain ⟨_, _, _, _, hset, _⟩ := hA
      rw [hset] at hkmem
      exact absurd hkmem (List.not_mem_nil k)
    · obtain ⟨t0, htg0, hst, hslot, hpreds, hset, happ, hgc, hgr, hlink⟩ := hB
      have hk0 : k = 0 := hset k hkmem
      subst hk0
      refine ⟨hnd, Or.inr (Or.inr ⟨t0, htg0, ?_, rfl, hpreds, hset, ?_, hgc, ?_, ?_⟩)⟩
      · show s.targets.getD 0 "" = t0
        rw [htg0]
        rfl
      · show ∀ j ∈ 0 :: s.applied, j = 0
        intro j hj
        rcases List.mem_cons.mp hj with rfl | hj2
        · rfl
        · rw [happ] at hj2
          exact absurd hj2 (List.not_mem_nil j)
      · exact fun q hq => Or.inl (hgr q hq)
      · intro gid v hv hc
        have h2 := snd_eq_of_nodup_fst s.gcalls hnd gid none (some 0)
          (hlink gid v hv) hc
        exact absurd h2 (by simp)
    · obtain ⟨t0, htg0, hst, hslot, hpreds, hset, happ, hgc, hgr, hlink⟩ := hC
      have hk0 : k = 0 := hset k hkmem
      subst hk0
      refine ⟨hnd, Or.inr (Or.inr ⟨t0, htg0, ?_, rfl, hpreds, hset, ?_, hgc, hgr, hlink⟩)⟩
      · show s.targets.getD 0 "" = t0
        rw [htg0]
        rfl
      · intro j hj
        rcases List.mem_cons.mp hj with rfl | hj2
        · rfl
        · exact happ j hj2
  | getCall gid =>
    simp only [gok, Bool.not_eq_true'] at hok
    have hfresh : gid ∉ s.gcalls.map Prod.fst :=
      not_mem_of_contains_false _ gid hok
    have hnd2 : ((gstep s (GEvent.getCall gid)).gcalls.map Prod.fst).Nodup := by
      show ((gid, s.slot) :: s.gcalls).map Prod.fst |>.Nodup
      rw [List.map_cons]
      exact List.nodup_cons.mpr ⟨hfresh, hnd⟩
    rcases hbr with hA | hB | hC
    · obtain ⟨htg0, hst, hslot, hpreds, hset, happ, hgc, hgr, hlink⟩ := hA
      have hgres : (gstep s (GEvent.getCall gid)).gresults =
          (gid, s.status) :: s.gresults := by
        simp [gstep, hslot]
      refine ⟨hnd2, Or.inl ⟨htg0, hst, hslot, hpreds, hset, happ, ?_, ?_, ?_⟩⟩
      · show ∀ p ∈ (gid, s.slot) :: s.gcalls, p.2 = (none : Option Nat)
        intro p hp
        rcases List.mem_cons.mp hp with rfl | hp2
        · exact hslot
        · exact hgc p hp2
      · rw [hgres]
        intro q hq
        rcases List.mem_cons.mp hq with rfl | hq2
        · exact hst
        · exact hgr q hq2
      · rw [hgres]
        intro gid2 v hv
        rcases List.mem_cons.mp hv with hv1 | hv2
        · have hg2 : gid2 = gid := ((Prod.mk.injEq _ _ _ _).mp hv1).1
          subst hg2
          show (gid2, (none : Option Nat)) ∈ (gid2, s.slot) :: s.gcalls
          rw [hslot]
          exact List.mem_cons_self _ _
        · exact List.mem_cons_of_mem _ (hlink gid2 v hv2)
    · obtain ⟨t0, htg0, hst, hslot, hpreds, hset, happ, hgc, hgr, hlink⟩ := hB
      have hgres : (gstep s (GEvent.getCall gid)).gresults = s.gresults := by
        simp [gstep, hslot]
      refine ⟨hnd2, Or.inr (Or.inl ⟨t0, htg0, hst, hslot, hpreds, hset, happ, ?_, ?_, ?_⟩)⟩
      · show ∀ p ∈ (gid, s.slot) :: s.gcalls, p.2 = (none : Option Nat) ∨ p.2 = some 0
        intro p hp
        rcases List.mem_cons.mp hp with rfl | hp2
        · exact Or.inr hslot
        · exact hgc p hp2
      · rw [hgres]
        exact hgr
      · rw [hgres]
        intro gid2 v hv
        exact List.mem_cons_of_mem _ (hlink gid2 v hv)
    · obtain ⟨t0, htg0, hst, hslot, hpreds, hset, happ, hgc, hgr, hlink⟩ := hC
      have hgres : (gstep s (GEvent.getCall gid)).gresults =
          (gid, s.status) :: s.gresults := by
        simp [gstep, hslot]
      refine ⟨hnd2, Or.inr (Or.inr ⟨t0, htg0, hst, hslot, hpreds, hset, happ, ?_, ?_, ?_⟩)⟩
      · show ∀ p ∈ (gid, s.slot) :: s.gcalls, p.2 = (none : Option Nat) ∨ p.2 = some 0
        intro p hp
        rcases List.mem_cons.mp hp with rfl | hp2
        · exact Or.inl hslot
        · exact hgc p hp2
      · rw [hgres]
        intro q hq
        rcases List.mem_cons.mp hq with rfl | hq2
        · exact Or.inr hst
        · exact hgr q hq2
      · rw [hgres]
        intro gid2 v hv hc
        rcases List.mem_cons.mp hv with hv1 | hv2
        · exact ((Prod.mk.injEq _ _ _ _).mp hv1).2.trans hst
        · have hc2 : (gid2, some 0) ∈ s.gcalls := by
            rcases List.mem_cons.mp hc with hc1 | hc1
            · have := ((Prod.mk.injEq _ _ _ _).mp hc1).2
              rw [hslot] at this
              exact absurd this (by simp)
            · exact hc1
          exact hlink gid2 v hv2 hc2
  | getResolve gid =>
    simp only [gok, Bool.and_eq_true, Bool.not_eq_true'] at hok
    obtain ⟨_, hmatch⟩ := hok
    rcases hfind : s.gcalls.find? (fun p => p.1 = gid) with _ | ⟨gid2, o⟩
    · rw [hfind] at hmatch
      simp at hmatch
    · rcases ho : o with _ | k
      · rw [hfind, ho] at hmatch
        simp at hmatch
      · subst ho
        rw [hfind] at hmatch
        have happk : s.applied.contains k = true := hmatch
        have hg2 : gid2 = gid := by simpa using List.find?_some hfind
        subst hg2
        have hcmem : (gid2, some k) ∈ s.gcalls := List.mem_of_find?_eq_some hfind
        have hamem : k ∈ s.applied := List.elem_iff.mp happk
        rcases hbr with hA | hB | hC
        · obtain ⟨_, _, _, _, _, _, hgc, _, _⟩ := hA
          have := hgc _ hcmem
          exact absurd this (by simp)
        · obtain ⟨t0, _, _, _, _, _, happ, _, _, _⟩ := hB
          rw [happ] at hamem
          exact absurd hamem (List.not_mem_nil k)
        · obtain ⟨t0, htg0, hst, hslot, hpreds, hset, happ, hgc, hgr, hlink⟩ := hC
          refine ⟨hnd, Or.inr (Or.inr ⟨t0, htg0, hst, hslot, hpreds, hset, happ, hgc, ?_, ?_⟩)⟩
          · show ∀ q ∈ (gid2, s.status) :: s.gresults, q.2 = i ∨ q.2 = t0
            intro q hq
            rcases List.mem_cons.mp hq with rfl | hq2
            · exact Or.inr hst
            · exact hgr q hq2
          · show ∀ gid3 v, (gid3, v) ∈ (gid2, s.status) :: s.gresults →
              (gid3, some 0) ∈ s.gcalls → v = t0
            intro gid3 v hv hc
            rcases List.mem_cons.mp hv with hv1 | hv2
            · exact ((Prod.mk.injEq _ _ _ _).mp hv1).2.trans hst
            · exact hlink gid3 v hv2 hc

/-- The invariant holds along every valid trace issuing at most one
change, counting changes already recorded in the targets. -/
theorem ginv_grun (i : String) :
    ∀ (es : List GEvent) (s : GSt), GInv i s →
      s.targets.length + (es.filter isChange).length ≤ 1 →
      gvalid s es = true → GInv i (grun s es) := by
  intro es
  induction es with
  | nil =>
    intro s h _ _
    exact h
  | cons e es ih =>
    intro s hinv hbud hv
    simp only [gvalid, Bool.and_eq_true] at hv
    obtain ⟨hok, hv2⟩ := hv
    have hch : ∀ t, e = GEvent.change t → s.targets = [] := by
      intro t he
      subst he
      have hflen : ((GEvent.change t :: es).filter isChange).length =
          (es.filter isChange).length + 1 := by
        simp [List.filter_cons, isChange]
      rw [hflen] at hbud
      exact List.length_eq_zero.mp (by omega)
    have hnext := ginv_step i s e hinv hok hch
    have hbud2 : (gstep s e).targets.length + (es.filter isChange).length ≤ 1 := by
      cases e with
      | change t =>
        have htg := hch t rfl
        have h2 : (gstep s (GEvent.change t)).targets = s.targets ++ [t] := rfl
        have hflen : ((GEvent.change t :: es).filter isChange).length =
            (es.filter isChange).length + 1 := by
          simp [List.filter_cons, isChange]
        rw [hflen] at hbud
        rw [h2, List.length_append, htg]
        simp only [List.length_nil, List.length_singleton]
        omega
      | settleWork k =>
        have hflen : ((GEvent.settleWork k :: es).filter isChange).length =
            (es.filter isChange).length := by
          simp [List.filter_cons, isChange]
        rw [hflen] at hbud
        exact hbud
      | applyT k =>
        have hflen : ((GEvent.applyT k :: es).filter isChange).length =
            (es.filter isChange).length := by
          simp [List.filter_cons, isChange]
        rw [hflen] at hbud
        exact hbud
      | getCall gid =>
        have hflen : ((GEvent.getCall gid :: es).filter isChange).length =
            (es.filter isChange).length := by
          simp [List.filter_cons, isChange]
        rw [hflen] at hbud
        exact hbud
      | getResolve gid =>
        have hflen : ((GEvent.getResolve gid :: es).filter isChange).length =
            (es.filter isChange).length := by
          simp [List.filter_cons, isChange]
        rw [hflen] at hbud
        exact hbud
    exact ih (gstep s e) hnext hbud2 hv2

/-- The gate in its initial state satisfies the invariant. -/
theorem ginv_ginit (i : String) : GInv i (ginit i) := by
  refine ⟨by simp [ginit], Or.inl ⟨rfl, rfl, rfl, rfl, rfl, rfl, ?_, ?_, ?_⟩⟩
  · intro p hp
    exact absurd hp (List.not_mem_nil p)
  · intro q hq
    exact absurd hq (List.not_mem_nil q)
  · intro gid v hv
    exact absurd hv (List.not_mem_nil (gid, v))

/-- The overlapping-change trace exhibiting the C9 violation. -/
def exC9 : List GEvent :=
  [GEvent.change "t1", GEvent.change "t2", GEvent.settleWork 0,
    GEvent.applyT 0, GEvent.getCall 7]

/-- C9 counterexample: with two overlapping changes, applying the first
transition clears the shared pending slot, so a get issued afterwards
resolves immediately with the first target while the second transition
is still pending — the caller observes a half-applied change sequence. -/
theorem c9_overlapping_change_get_early :
    gvalid (ginit "S") exC9 = true ∧
    GEvent.getCall 7 ∈ exC9 ∧
    (7, "t1") ∈ (grun (ginit "S") exC9).gresults ∧
    (grun (ginit "S") exC9).targets = ["t1", "t2"] ∧
    1 ∉ (grun (ginit "S") exC9).applied ∧
    (grun (ginit "S") exC9).slot = none ∧
    "t1" ≠ "t2" := by
  decide

/-- C9 amended: the apply step always installs the target and clears the
slot (whether the work fulfilled or rejected, both being collapsed into
its settlement); and along any valid trace that issues at most one
change, once the transition has applied the status is the change target
and the slot is clear, every resolved get records the initial status or
the change target, and every get that observed the pending slot resolves
with precisely the change target — no caller observes a half-applied
transition in the single-change case. -/
theorem c9_single_change_no_half_applied (i : String) (es : List GEvent)
    (hv : gvalid (ginit i) es = true)
    (hone : (es.filter isChange).length ≤ 1) :
    (∀ (s : GSt) (k : Nat),
      (gstep s (GEvent.applyT k)).status = s.targets.getD k "" ∧
      (gstep s (GEvent.applyT k)).slot = none ∧
      k ∈ (gstep s (GEvent.applyT k)).applied) ∧
    (0 ∈ (grun (ginit i) es).applied →
      ∃ t, GEvent.change t ∈ es ∧ (grun (ginit i) es).status = t ∧
        (grun (ginit i) es).slot = none) ∧
    (∀ gid v, (gid, v) ∈ (grun (ginit i) es).gresults →
      v = i ∨ ∃ t, GEvent.change t ∈ es ∧ v = t) ∧
    (∀ gid v k, (gid, v) ∈ (grun (ginit i) es).gresults →
      (gid, some k) ∈ (grun (ginit i) es).gcalls →
      ∃ t, GEvent.change t ∈ es ∧ v = t ∧ (grun (ginit i) es).status = t) := by
  have hinv : GInv i (grun (ginit i) es) :=
    ginv_grun i es (ginit i) (ginv_ginit i) (by simpa [ginit] using hone) hv
  obtain ⟨hnd, hbr⟩ := hinv
  have htmem : ∀ t0, (grun (ginit i) es).targets = [t0] →
      GEvent.change t0 ∈ es := by
    intro t0 ht
    have h1 : t0 ∈ (grun (ginit i) es).targets := by
      rw [ht]
      exact List.mem_cons_self _ _
    rcases grun_targets_mem es (ginit i) t0 h1 with h2 | h2
    · exact absurd h2 (List.not_mem_nil t0)
    · exact h2
  refine ⟨fun s k => ⟨rfl, rfl, List.mem_cons_self _ _⟩, ?_, ?_, ?_⟩
  · intro h0
    rcases hbr with hA | hB | hC
    · obtain ⟨_, _, _, _, _, happ, _⟩ := hA
      rw [happ] at h0
      exact absurd h0 (List.not_mem_nil 0)
    · obtain ⟨t0, _, _, _, _, _, happ, _⟩ := hB
      rw [happ] at h0
      exact absurd h0 (List.not_mem_nil 0)
    · obtain ⟨t0, htg0, hst, hslot, _⟩ := hC
      exact ⟨t0, htmem t0 htg0, hst, hslot⟩
  · intro gid v hv2
    rcases hbr with hA | hB | hC
    · exact Or.inl (hA.2.2.2.2.2.2.2.1 (gid, v) hv2)
    · obtain ⟨t0, _, _, _, _, _, _, _, hgr, _⟩ := hB
      exact Or.inl (hgr (gid, v) hv2)
    · obtain ⟨t0, htg0, _, _, _, _, _, _, hgr, _⟩ := hC
      rcases hgr (gid, v) hv2 with h1 | h1
      · exact Or.inl h1
      · exact Or.inr ⟨t0, htmem t0 htg0, h1⟩
  · intro gid v k hv2 hc
    rcases hbr with hA | hB | hC
    · obtain ⟨_, _, _, _, _, _, hgc, _⟩ := hA
      have := hgc _ hc
      exact absurd this (by simp)
    · obtain ⟨t0, _, _, _, _, _, _, hgc, _, hlink⟩ := hB
      have hk0 : (some k : Option Nat) = some 0 := by
        rcases hgc _ hc with h1 | h1
        · exact absurd h1 (by simp)
        · exact h1
      rw [hk0] at hc
      have h2 := snd_eq_of_nodup_fst _ hnd gid none (some 0)
        (hlink gid v hv2) hc
      exact absurd h2 (by simp)
    · obtain ⟨t0, htg0, hst, _, _, _, _, hgc, _, hlink⟩ := hC
      have hk0 : (some k : Option Nat) = some 0 := by
        rcases hgc _ hc with h1 | h1
        · exact absurd h1 (by simp)
        · exact h1
      rw [hk0] at hc
      exact ⟨t0, htmem t0 htg0, hlink gid v hv2 hc, hst⟩

/-- The single-change trace for the C9 witness: one change whose get was
issued while the transition was pending. -/
def es9 : List GEvent :=
  [GEvent.change "go", GEvent.getCall 4, GEvent.settleWork 0,
    GEvent.applyT 0, GEvent.getResolve 4]

/-- C9 witness: on the single-change trace the blocked get resolves with
the change target, as yielded by the theorem at its concrete inputs. -/
theorem c9_single_change_no_half_applied_witness :
    (gvalid (ginit "S") es9 = true ∧ (es9.filter isChange).length ≤ 1 ∧
      (4, "go") ∈ (grun (ginit "S") es9).gresults ∧
      (4, some 0) ∈ (grun (ginit "S") es9).gcalls) ∧
    ∃ t, GEvent.change t ∈ es9 ∧ "go" = t ∧
      (grun (ginit "S") es9).status = t := by
  refine ⟨⟨by decide, by decide, by decide, by decide⟩, ?_⟩
  exact (c9_single_change_no_half_applied "S" es9 (by decide) (by decide)).2.2.2
    4 "go" 0 (by decide) (by decide)

end Sistema
